import Mathlib

/-!
Shallow embedding of the ADEL assignment checker (src/app.py): the name
normalizer, fuzzy matcher, feedback post-processor and the bulk-marking
orchestrator, together with proofs checking the specification's claims.

Python strings are modelled as lists of Unicode scalar values (`List Char`).
The Unicode library calls (`unicodedata.normalize`, `unicodedata.category`)
are modelled by explicit tables covering the Latin letter repertoire the
application handles; standard library string methods (`strip`, `split`,
`lower`, ...) are modelled character-exactly on the ASCII range.
-/

namespace AdelChecker

/-- Python strings as lists of code points. -/
abbrev PStr := List Char

/-- View of a Lean string literal as a Python string value. -/
def pstr (s : String) : PStr := s.data

/-- Python `str.isascii()` for one character: code point below 128. -/
def isAsciiCh (c : Char) : Bool := c.toNat < 128

/-- Python `str.isspace()` on the ASCII range: space, TAB..CR, FS..US. -/
def pyIsSpaceCh (c : Char) : Bool :=
  c.toNat = 32 || (9 ≤ c.toNat && c.toNat ≤ 13) || (28 ≤ c.toNat && c.toNat ≤ 31)

/-- Python `str.isalpha()` on the ASCII range: the letters A-Z and a-z. -/
def pyIsAlphaCh (c : Char) : Bool :=
  (65 ≤ c.toNat && c.toNat ≤ 90) || (97 ≤ c.toNat && c.toNat ≤ 122)

/-- Decimal digits 0-9. -/
def pyIsDigitCh (c : Char) : Bool := 48 ≤ c.toNat && c.toNat ≤ 57

/-- Python `str.isalnum()` on the ASCII range. -/
def pyIsAlnumCh (c : Char) : Bool := pyIsAlphaCh c || pyIsDigitCh c

/-- Word characters of Python `re` (`\w`) on the ASCII range. -/
def wordCh (c : Char) : Bool := pyIsAlnumCh c || c = '_'

/-- Python `str.lower()` on one ASCII character. -/
def asciiLower (c : Char) : Char :=
  if 65 ≤ c.toNat && c.toNat ≤ 90 then Char.ofNat (c.toNat + 32) else c

/-- Python `str.upper()` on one ASCII character. -/
def asciiUpper (c : Char) : Char :=
  if 97 ≤ c.toNat && c.toNat ≤ 122 then Char.ofNat (c.toNat - 32) else c

/-- Canonical decomposition of one character, modelling
`unicodedata.normalize('NFD', ...)` on the accented Latin letters this
application handles; characters outside the table decompose to themselves. -/
def nfdChar (c : Char) : List Char :=
  if c = 'á' then ['a', '́'] else
  if c = 'é' then ['e', '́'] else
  if c = 'í' then ['i', '́'] else
  if c = 'ó' then ['o', '́'] else
  if c = 'ú' then ['u', '́'] else
  if c = 'Á' then ['A', '́'] else
  if c = 'É' then ['E', '́'] else
  if c = 'Í' then ['I', '́'] else
  if c = 'Ó' then ['O', '́'] else
  if c = 'Ú' then ['U', '́'] else
  if c = 'ü' then ['u', '̈'] else
  if c = 'Ü' then ['U', '̈'] else
  if c = 'ñ' then ['n', '̃'] else
  if c = 'Ñ' then ['N', '̃'] else
  [c]

/-- Canonical decomposition of a whole string. -/
def nfdStr : PStr → PStr
  | [] => []
  | c :: rest => nfdChar c ++ nfdStr rest

/-- Canonical composition of a base letter with a following combining mark,
the inverse of the `nfdChar` table. -/
def composeChar (b m : Char) : Option Char :=
  if b = 'a' ∧ m = '́' then some 'á' else
  if b = 'e' ∧ m = '́' then some 'é' else
  if b = 'i' ∧ m = '́' then some 'í' else
  if b = 'o' ∧ m = '́' then some 'ó' else
  if b = 'u' ∧ m = '́' then some 'ú' else
  if b = 'A' ∧ m = '́' then some 'Á' else
  if b = 'E' ∧ m = '́' then some 'É' else
  if b = 'I' ∧ m = '́' then some 'Í' else
  if b = 'O' ∧ m = '́' then some 'Ó' else
  if b = 'U' ∧ m = '́' then some 'Ú' else
  if b = 'u' ∧ m = '̈' then some 'ü' else
  if b = 'U' ∧ m = '̈' then some 'Ü' else
  if b = 'n' ∧ m = '̃' then some 'ñ' else
  if b = 'N' ∧ m = '̃' then some 'Ñ' else
  none

/-- Composition pass over a decomposed string. -/
def nfcAux : PStr → PStr
  | [] => []
  | [c] => [c]
  | c₁ :: c₂ :: rest =>
    match composeChar c₁ c₂ with
    | some c => c :: nfcAux rest
    | none => c₁ :: nfcAux (c₂ :: rest)

/-- Model of `unicodedata.normalize('NFC', ...)`: canonical composition of the
canonical decomposition. -/
def nfc (s : PStr) : PStr := nfcAux (nfdStr s)

/-- Accented Latin letters of the model's repertoire (general category L). -/
def accentedLetters : List Char :=
  ['á', 'é', 'í', 'ó', 'ú', 'Á', 'É', 'Í', 'Ó', 'Ú', 'ü', 'Ü', 'ñ', 'Ñ']

/-- Model of `unicodedata.category(c).startswith('L')` on the repertoire:
ASCII letters and the accented letters are letters; combining marks (Mn),
box-drawing symbols (So), punctuation and digits are not. -/
def isLetterCategory (c : Char) : Bool :=
  pyIsAlphaCh c || accentedLetters.contains c

/-- Source `clean_corrupted_name` (src/app.py:132): keep letters, spaces,
hyphens and apostrophes, dropping corruption artifacts. -/
def clean_corrupted_name (name : PStr) : PStr :=
  name.filter (fun c => isLetterCategory c || c = ' ' || c = '-' || c = '\'')

/-- Python `str.strip()` (whitespace at both ends removed). -/
def pyStrip (l : PStr) : PStr :=
  ((l.dropWhile pyIsSpaceCh).reverse.dropWhile pyIsSpaceCh).reverse

/-- Helper for `pySplit`: scan the string, `acc` holding the pending token in
reverse. -/
def pySplitAux : PStr → PStr → List PStr
  | [], acc => if acc = [] then [] else [acc.reverse]
  | c :: rest, acc =>
    if pyIsSpaceCh c then
      if acc = [] then pySplitAux rest [] else acc.reverse :: pySplitAux rest []
    else pySplitAux rest (c :: acc)

/-- Python `str.split()` with no separator: split on whitespace runs,
dropping empty fields. -/
def pySplit (l : PStr) : List PStr := pySplitAux l []

/-- Python `' '.join(ts)`. -/
def joinSpace : List PStr → PStr
  | [] => []
  | [t] => t
  | t :: ts => t ++ ' ' :: joinSpace ts

/-- Python `os.path.splitext(p)[0]`: drop the extension after the last dot;
a basename consisting only of leading dots has no extension. -/
def splitextBase (l : PStr) : PStr :=
  match l.reverse.findIdx? (· == '.') with
  | none => l
  | some k =>
    let i := l.length - 1 - k
    if (l.take i).all (· == '.') then l else l.take i

/-- Characters after the last dot, Python `filename.rsplit('.', 1)[1]`
(meaningful only when the string contains a dot). -/
def afterLastDot (l : PStr) : PStr :=
  (l.reverse.takeWhile (fun c => !(c == '.'))).reverse

/-- Source `allowed_file` (src/app.py:45): the name contains a dot and its
lower-cased extension is in the allowed set. -/
def allowed_file (l : PStr) (types : List PStr) : Bool :=
  l.contains '.' && types.contains ((afterLastDot l).map asciiLower)

/-- Python `str.capitalize()`: first character upper-cased, rest lower-cased. -/
def pyCapitalize : PStr → PStr
  | [] => []
  | c :: r => asciiUpper c :: r.map asciiLower

/-- Source `extract_first_name_from_filename` (src/app.py:144): strip the
extension, NFC-normalize, clean corruption, return the first word capitalized
or the placeholder "Student". -/
def extract_first_name_from_filename (filename : PStr) : PStr :=
  let namePart := splitextBase filename
  let namePart := nfc namePart
  let namePart := clean_corrupted_name namePart
  match pySplit (pyStrip namePart) with
  | [] => pstr "Student"
  | w :: _ => pyCapitalize w

/-- Source `normalize_name` (src/app.py:152): NFD-decompose, keep only ASCII
letters and whitespace, keep only alphanumerics and whitespace, then
strip, lower-case, split and rejoin the first two tokens. -/
def normalize_name (name : PStr) : PStr :=
  joinSpace ((pySplit ((pyStrip
    (((nfdStr name).filter (fun c => isAsciiCh c && (pyIsAlphaCh c || pyIsSpaceCh c))).filter
      (fun c => pyIsAlnumCh c || pyIsSpaceCh c))).map asciiLower)).take 2)

/-- Count of characters of `w1` (with multiplicity) present in `w2`, the
source's `sum(1 for c in w1 if c in w2)` (src/app.py:210). -/
def commonChars (w1 w2 : PStr) : Nat :=
  (w1.filter (fun c => w2.contains c)).length

/-- Weight contributed by one token pair, in tenths: 10 for token equality,
9 for the partial-match branch (both lengths at least 3 and
`common_chars / max(len(w1), len(w2)) >= 0.8`, stated exactly in rationals as
`4 * max ≤ 5 * common`), 0 otherwise (src/app.py:199-213). -/
def pairTenths (w1 w2 : PStr) : Nat :=
  if w1 = w2 then 10
  else if 3 ≤ w1.length ∧ 3 ≤ w2.length ∧
          4 * max w1.length w2.length ≤ 5 * commonChars w1 w2 then 9
  else 0

/-- Source `calculate_match_percentage` (src/app.py:180): 100 on equal
normalized names, else the summed pair weights over the first (up to) two
token pairs, divided by 2 and scaled to a percentage.  The weights are kept
in tenths, so the source's `int((matches / 2) * 100)` is `tenths * 100 / 20`;
on the reachable values 0, 9, 10, 18, 19, 20 the float expression evaluates
to exactly these quotients (0, 45, 50, 90, 95, 100). -/
def calculate_match_percentage (name1 name2 : PStr) : Nat :=
  if normalize_name name1 = normalize_name name2 then 100
  else if pySplit (normalize_name name1) = [] ∨ pySplit (normalize_name name2) = [] then 0
  else
    (List.zipWith pairTenths ((pySplit (normalize_name name1)).take 2)
      ((pySplit (normalize_name name2)).take 2)).sum * 100 / 20

/-- Attempt at the current position to match `score\s*:\s*(\d(?:\.\d)?)`
case-insensitively (the part of the pattern after the word boundary);
return the captured group on success. -/
def tryScoreHere (l : PStr) : Option PStr :=
  if (l.take 5).map asciiLower = pstr "score" then
    match (l.drop 5).dropWhile pyIsSpaceCh with
    | ':' :: r2 =>
      match r2.dropWhile pyIsSpaceCh with
      | d :: r4 =>
        if pyIsDigitCh d then
          match r4 with
          | '.' :: d2 :: _ => if pyIsDigitCh d2 then some [d, '.', d2] else some [d]
          | _ => some [d]
        else none
      | [] => none
    | _ => none
  else none

/-- Left-to-right scan for the leftmost match of
`\bscore\s*:\s*(\d(?:\.\d)?)` (IGNORECASE): `prevW` records whether the
previous character is a word character (so `\b` holds exactly when it is
false), `pos` the current index.  Returns match start and captured group. -/
def findScoreAux : PStr → Bool → Nat → Option (Nat × PStr)
  | [], _, _ => none
  | c :: rest, prevW, pos =>
    match (if prevW then none else tryScoreHere (c :: rest)) with
    | some g => some (pos, g)
    | none => findScoreAux rest (wordCh c) (pos + 1)

/-- Model of `re.search(r"\bscore\s*:\s*(\d(?:\.\d)?)", comment, IGNORECASE)`:
leftmost match position and captured group. -/
def findScore (s : PStr) : Option (Nat × PStr) := findScoreAux s false 0

/-- Source `split_feedback_and_score` (src/app.py:172): on a match, the
captured digits become the score and the text before the match start,
stripped, becomes the comment; otherwise the whole text and empty score. -/
def split_feedback_and_score (comment : PStr) : PStr × PStr :=
  match findScore comment with
  | some (start, g) => (pyStrip (comment.take start), g)
  | none => (comment, [])

/-- Case-insensitive whole-word substitution with both `\b` boundaries,
modelling `re.sub(rf'\b{word}\b', repl, s, flags=re.IGNORECASE)` for a
lower-case letter-only `word`.  Structural fuel (initialised to the string
length, which the scan never exhausts since every step consumes at least
one character). -/
def subWordAux (w r : PStr) : Nat → Bool → PStr → PStr
  | 0, _, s => s
  | _ + 1, _, [] => []
  | fuel + 1, prevW, c :: rest =>
    if prevW = false ∧ w ≠ [] ∧ ((c :: rest).take w.length).map asciiLower = w ∧
        (match (c :: rest).drop w.length with
         | [] => true
         | d :: _ => !wordCh d) = true then
      r ++ subWordAux w r fuel true ((c :: rest).drop w.length)
    else c :: subWordAux w r fuel (wordCh c) rest

/-- Whole-word case-insensitive replacement of `w` by `r` throughout `s`. -/
def subWordCI (w r s : PStr) : PStr := subWordAux w r s.length false s

/-- The vocabulary-softening table of `enforce_instructions`
(src/app.py:64), in source order. -/
def replacements : List (PStr × PStr) :=
  [ (pstr "commendable", pstr "good")
  , (pstr "excellent", pstr "very good")
  , (pstr "innovative", pstr "new")
  , (pstr "unique", pstr "special")
  , (pstr "fostering", pstr "helping")
  , (pstr "comprehensive", pstr "complete")
  , (pstr "ensure", pstr "make sure")
  , (pstr "showcases", pstr "shows")
  , (pstr "great", pstr "good") ]

/-- Model of `re.match(r'^\w+,', feedback)`: one or more word characters
followed directly by a comma, at the start. -/
def startsWordComma (s : PStr) : Bool :=
  let ws := s.takeWhile wordCh
  match s.drop ws.length with
  | ',' :: _ => !ws.isEmpty
  | _ => false

/-- Source `enforce_instructions` (src/app.py:63): vocabulary substitution,
"You, " salutation prepend, 1000-character truncation with ellipsis. -/
def enforce_instructions (feedback : PStr) : PStr :=
  let feedback := replacements.foldl (fun f p => subWordCI p.1 p.2 f) feedback
  let feedback :=
    if ¬ (pstr "You" <+: feedback) ∧ startsWordComma feedback = false then
      pstr "You, " ++ feedback
    else feedback
  if 1000 < feedback.length then feedback.take 1000 ++ pstr "..." else feedback

/-- Letters matched by the classes `[A-ZÁÉÍÓÚÑ]` and `[a-záéíóúñ]` under
re.IGNORECASE (case distinctions collapse). -/
def salLetterCh (c : Char) : Bool :=
  pyIsAlphaCh c ||
    ['á', 'é', 'í', 'ó', 'ú', 'ñ', 'Á', 'É', 'Í', 'Ó', 'Ú', 'Ñ'].contains c

/-- Model of `re.sub(r"^[A-ZÁÉÍÓÚÑ][a-záéíóúñ]+\s*,\s*", "", comment,
flags=re.IGNORECASE)` (src/app.py:282): drop one leading "Name , " salutation
of at least two letters. -/
def stripLeadingSalutation (s : PStr) : PStr :=
  match s with
  | [] => []
  | c :: rest =>
    if salLetterCh c then
      let letters := rest.takeWhile salLetterCh
      if letters = [] then s
      else
        match (rest.drop letters.length).dropWhile pyIsSpaceCh with
        | ',' :: r2 => r2.dropWhile pyIsSpaceCh
        | _ => s
    else s

/-- Model of `re.sub(r'^[^,]+,', correct_first_name + ',', comment)`
(src/app.py:303, 335): rewrite the text before the first comma. -/
def rewriteSalutation (name s : PStr) : PStr :=
  let pre := s.takeWhile (fun c => !(c == ','))
  if pre = [] then s
  else
    match s.drop pre.length with
    | ',' :: rest => name ++ ',' :: rest
    | _ => s

/-- Model of `f"{first_name}, {comment[0].lower() + comment[1:]}" if comment
else ""` (src/app.py:284). -/
def prependFirstName (firstName comment : PStr) : PStr :=
  match comment with
  | [] => []
  | c :: r => firstName ++ ',' :: ' ' :: asciiLower c :: r

/-- Case-insensitive `comment.lower().startswith(first_name.lower())`
(src/app.py:283). -/
def startsWithCI (s p : PStr) : Bool :=
  (p.map asciiLower).isPrefixOf (s.map asciiLower)

/-- Numeric value of an ASCII digit. -/
def digitVal (c : Char) : ℚ := ((c.toNat - 48 : Nat) : ℚ)

/-- Model of `float(score) if score else None` (src/app.py:306) for the
score shapes the extractor produces (`d` or `d.d`). -/
def scoreToGrade (score : PStr) : Option ℚ :=
  match score with
  | [] => none
  | [d] => some (digitVal d)
  | [d, '.', d2] => some (digitVal d + digitVal d2 / 10)
  | _ => none

example : split_feedback_and_score (pstr "blah Score : 8.5 extra") =
    (pstr "blah", pstr "8.5") := by decide
example : split_feedback_and_score (pstr "underscore: 7") =
    (pstr "underscore: 7", pstr "") := by decide
example : split_feedback_and_score (pstr "Score: 85") = (pstr "", pstr "8") := by decide
example : enforce_instructions (pstr "This is an excellent essay.") =
    pstr "You, This is an very good essay." := by decide
example : stripLeadingSalutation (pstr "You, Nice work") = pstr "Nice work" := by decide
example : stripLeadingSalutation (pstr "Error: boom") = pstr "Error: boom" := by decide
example : rewriteSalutation (pstr "Maria") (pstr "Bob, error: boom") =
    pstr "Maria, error: boom" := by decide

example : normalize_name (pstr "Fátima") = pstr "fatima" := by decide
example : normalize_name (pstr "Faütima") = pstr "fautima" := by decide
example : calculate_match_percentage (pstr "Fautima Garcia") (pstr "Fatima Garcia") = 95 := by decide
example : calculate_match_percentage (pstr "John Smith") (pstr "Amanda Lee") = 0 := by decide

/-- Match status tag of a Match Result (src/app.py:309, 340, 345). -/
inductive MatchStatus
  | success
  | noMatch
deriving DecidableEq, Repr

/-- The per-item Match Result record assembled at src/app.py:348-357. -/
structure ItemResult where
  fileName : PStr
  studentName : PStr
  matchedName : Option PStr
  matchPercentage : Nat
  matchStatus : MatchStatus
  score : PStr
  comment : PStr
  commentPreview : PStr
deriving DecidableEq, Repr

/-- Server-sent events yielded by `process_bulk_marking`.  `bareError` is
the untyped `{'error': ...}` payload of src/app.py:223, which carries no
`type` field, unlike the `{'type': 'error', ...}` events of src/app.py:375. -/
inductive Event
  | progress (current total percentage : Nat) (result : ItemResult)
  | error (file message : PStr)
  | complete (total : Nat)
  | fatalError (message : PStr)
  | bareError (message : PStr)
deriving DecidableEq, Repr

/-- Predicate for `progress` events. -/
def Event.isProgress : Event → Bool
  | .progress .. => true
  | _ => false

/-- Predicate for `{'type': 'error', ...}` events. -/
def Event.isErrorEvent : Event → Bool
  | .error .. => true
  | _ => false

/-- Predicate for `fatal_error` events. -/
def Event.isFatal : Event → Bool
  | .fatalError _ => true
  | _ => false

/-- Roster row: the `Full name` cell, the remaining pre-existing cells
(opaque to the pipeline), and the two augmented fields `Feedback comments`
and `Grade`.  A CSV lacking the augmented columns loads with feedback `""`
and grade `none` (src/app.py:237-241). -/
structure Row where
  fullName : PStr
  extra : List PStr
  feedback : PStr
  grade : Option ℚ
deriving DecidableEq, Repr

/-- One archive entry together with the outcomes of the external calls made
for it: `extraction` for `extract_text` (src/app.py:88, called before the
try block of `generate_feedback`), `generation` for the chat-completion call
(src/app.py:119, inside that try block). -/
structure ItemSpec where
  rawFname : PStr
  extraction : Except PStr PStr
  generation : Except PStr PStr
deriving Repr

/-- Inputs of one `process_bulk_marking` run; the fallible collaborator
steps (instructions file read, roster CSV read, archive extraction, final
artifact persistence) are given as outcome oracles. -/
structure RunInput where
  taskType : PStr
  instructionsLoad : Except PStr Unit
  rosterLoad : Except PStr (List Row)
  archiveLoad : Except PStr (List ItemSpec)
  persistOutcome : Except PStr Unit
deriving Repr

/-- Keys of `TASK_CONFIGS` (src/app.py:39). -/
def taskConfigKeys : List PStr := [pstr "reading", pstr "oral", pstr "essay"]

/-- Test `TASK_CONFIGS.get(task_type)` succeeding (src/app.py:221). -/
def validTask (t : PStr) : Bool := taskConfigKeys.contains t

/-- Source `generate_feedback` (src/app.py:87): `extract_text` is called
before the try block, so an extraction exception propagates to the caller;
a generation exception is caught and becomes the literal
"Error: <message>" string, skipping `enforce_instructions`. -/
def generate_feedback (it : ItemSpec) : Except PStr PStr :=
  match it.extraction with
  | .error e => .error e
  | .ok _text =>
    .ok (match it.generation with
         | .ok fb => enforce_instructions fb
         | .error e => pstr "Error: " ++ e)

/-- Index of the first roster name whose canonical form (after the NFC
pre-normalization of src/app.py:234) equals the canonical candidate: the
pandas exact-match lookup of src/app.py:289-295. -/
def exactIndex (normalizedFilename : PStr) (names : List PStr) : Option Nat :=
  names.findIdx? (fun n => normalize_name (nfc n) == normalizedFilename)

/-- The fuzzy loop of src/app.py:313-322: best `(index, name)` pair and best
score, updated on strict improvement, so the first highest-scoring roster
name wins. -/
def fuzzyStep (studentName : PStr) (acc : Option (Nat × PStr) × Nat) (p : Nat × PStr) :
    Option (Nat × PStr) × Nat :=
  if acc.2 < calculate_match_percentage studentName p.2 then
    (some p, calculate_match_percentage studentName p.2)
  else acc

/-- Accumulated best over the enumerated roster names. -/
def fuzzyScan (studentName : PStr) (names : List PStr) : Option (Nat × PStr) × Nat :=
  names.enum.foldl (fuzzyStep studentName) (none, 0)

/-- Outcome of the exact-then-fuzzy reconciliation; `fuzzyRan` records
whether control reached the fuzzy loop, which is what clobbers the shadowed
loop variable `idx` of src/app.py:316. -/
structure MatchOutcome where
  matchedName : Option PStr
  percentage : Nat
  status : MatchStatus
  fuzzyRan : Bool
deriving DecidableEq, Repr

/-- The matching logic of src/app.py:286-346 as a function of the cleaned
student name and the roster's `Full name` column: exact canonical lookup
first (confidence 100), otherwise the best fuzzy candidate accepted at the
80 threshold (`if best_match and best_score >= 80`; a nonempty tuple is
always truthy, so the test is the score threshold plus a non-`None` best). -/
def matchRoster (studentName : PStr) (names : List PStr) : MatchOutcome :=
  match exactIndex (normalize_name studentName) names with
  | some i =>
    { matchedName := names.get? i, percentage := 100
      status := .success, fuzzyRan := false }
  | none =>
    match fuzzyScan studentName names with
    | (some (_, n), bs) =>
      if 80 ≤ bs then
        { matchedName := some n, percentage := bs, status := .success, fuzzyRan := true }
      else
        { matchedName := none, percentage := 0, status := .noMatch, fuzzyRan := true }
    | (none, _) =>
      { matchedName := none, percentage := 0, status := .noMatch, fuzzyRan := true }

/-- The two `df.loc[df["Full name"] == matched_name, ...]` assignments
(src/app.py:305-306 and 337-338): every row bearing the matched name
receives the comment and the grade. -/
def updateRoster (rows : List Row) (matchedName comment : PStr) (grade : Option ℚ) :
    List Row :=
  rows.map (fun row =>
    if row.fullName = matchedName then
      { row with feedback := comment, grade := grade }
    else row)

/-- Result of processing one archive entry. -/
structure ItemStep where
  event : Event
  result? : Option ItemResult
  rows : List Row
deriving DecidableEq, Repr

/-- Preview truncation of src/app.py:356. -/
def preview (comment : PStr) : PStr :=
  if 150 < comment.length then comment.take 150 ++ pstr "..." else comment

/-- Processing of one archive entry: the try body of src/app.py:262-370 and
the item-level except of src/app.py:372-380.  `pos` is the 1-based file
index from `enumerate(files, 1)`; `total` the file count.  Exceptions inside
the body (a raising `extract_text`, or the `matched_name.split()[0]` of
src/app.py:298/330 hitting a wordless name) surface as an `error` event and
leave the roster untouched.  The `current` field of a progress event mirrors
the Python variable `idx`, which the fuzzy loop of src/app.py:316 shadows:
after that loop runs over a nonempty roster, `idx` is the last 0-based
roster index, not the file index. -/
def processItem (pos total : Nat) (it : ItemSpec) (rows : List Row) : ItemStep :=
  let fname := it.rawFname
  let fnameClean := clean_corrupted_name fname
  let errFile := if fname = [] then pstr "Unknown file" else fnameClean
  let studentName := pyStrip (splitextBase fnameClean)
  let firstName := extract_first_name_from_filename fname
  match generate_feedback it with
  | .error e => { event := .error errFile e, result? := none, rows := rows }
  | .ok fullFeedback =>
    let pair := split_feedback_and_score fullFeedback
    let score := pair.2
    let comment :=
      if pair.1 = [] then pair.1
      else
        let c1 := stripLeadingSalutation pair.1
        if startsWithCI c1 firstName then c1 else prependFirstName firstName c1
    let names := rows.map Row.fullName
    let outcome := matchRoster studentName names
    let idxAfter := if outcome.fuzzyRan ∧ names ≠ [] then names.length - 1 else pos
    match outcome.matchedName with
    | some matchedName =>
      match pySplit matchedName with
      | [] => { event := .error errFile (pstr "list index out of range")
                result? := none, rows := rows }
      | correctFirstName :: _ =>
        let comment2 :=
          if comment = [] then comment else rewriteSalutation correctFirstName comment
        let result : ItemResult :=
          { fileName := fnameClean, studentName := studentName
            matchedName := some matchedName, matchPercentage := outcome.percentage
            matchStatus := .success, score := score, comment := comment2
            commentPreview := preview comment2 }
        { event := .progress idxAfter total (idxAfter * 100 / total) result
          result? := some result
          rows := updateRoster rows matchedName comment2 (scoreToGrade score) }
    | none =>
      let result : ItemResult :=
        { fileName := fnameClean, studentName := studentName
          matchedName := none, matchPercentage := 0
          matchStatus := .noMatch, score := score, comment := comment
          commentPreview := preview comment }
      { event := .progress idxAfter total (idxAfter * 100 / total) result
        result? := some result, rows := rows }

/-- The per-file loop of src/app.py:261 (`for idx, fname in
enumerate(files, 1)`), threading the roster and collecting the yielded
events and appended results in order. -/
def runLoop (total : Nat) : Nat → List ItemSpec → List Row →
    List Event × List ItemResult × List Row
  | _, [], rows => ([], [], rows)
  | pos, it :: rest, rows =>
    let step := processItem pos total it rows
    let rec' := runLoop total (pos + 1) rest step.rows
    (step.event :: rec'.1,
     (match step.result? with
      | some r => r :: rec'.2.1
      | none => rec'.2.1),
     rec'.2.2)

/-- Artifacts persisted at run end: the mutated roster (the output CSV) and
the per-item results (the report workbook and session update). -/
structure Artifacts where
  roster : List Row
  results : List ItemResult
deriving DecidableEq, Repr

/-- Listing and NFC-normalization of the archive entries (src/app.py:249-250):
keep the PDF/DOCX files, NFC-normalize each name. -/
def filesOf (items : List ItemSpec) : List ItemSpec :=
  (items.filter (fun it => allowed_file it.rawFname [pstr "pdf", pstr "docx"])).map
    (fun it => { it with rawFname := nfc it.rawFname })

/-- Source `process_bulk_marking` (src/app.py:217): the complete run.
Returns the emitted event sequence and the persisted artifacts (`none` when
nothing is persisted).  An invalid task type yields the single untyped
`{'error': 'Invalid task type'}` payload (src/app.py:223); an exception in a
load step or in final persistence reaches the outer except and yields a
single `fatal_error` event after whatever item events were already emitted. -/
def process_bulk_marking (inp : RunInput) : List Event × Option Artifacts :=
  if validTask inp.taskType = false then ([.bareError (pstr "Invalid task type")], none)
  else
    match inp.instructionsLoad with
    | .error e => ([.fatalError e], none)
    | .ok _ =>
      match inp.rosterLoad with
      | .error e => ([.fatalError e], none)
      | .ok rows =>
        match inp.archiveLoad with
        | .error e => ([.fatalError e], none)
        | .ok items =>
          let files := filesOf items
          let total := files.length
          let run := runLoop total 1 files rows
          match inp.persistOutcome with
          | .error e => (run.1 ++ [.fatalError e], none)
          | .ok _ =>
            (run.1 ++ [.complete total], some { roster := run.2.2, results := run.2.1 })

/-- Event stream of a run. -/
def runEvents (inp : RunInput) : List Event := (process_bulk_marking inp).1

/-- Persisted artifacts of a run. -/
def runArtifacts (inp : RunInput) : Option Artifacts := (process_bulk_marking inp).2

example :
    runEvents
      { taskType := pstr "reading", instructionsLoad := .ok ()
        rosterLoad := .ok [{ fullName := pstr "Maria Lopez", extra := [], feedback := [], grade := none }]
        archiveLoad := .ok [{ rawFname := pstr "Maria Lopez.pdf"
                              extraction := .error (pstr "boom"), generation := .ok (pstr "x") }]
        persistOutcome := .ok () } =
      [.error (pstr "Maria Lopezpdf") (pstr "boom"), .complete 1] := by decide

/-! ### Character-level facts about the Unicode tables -/

lemma nfdChar_of_ne {c : Char} (h1 : c ≠ 'á') (h2 : c ≠ 'é') (h3 : c ≠ 'í')
    (h4 : c ≠ 'ó') (h5 : c ≠ 'ú') (h6 : c ≠ 'Á') (h7 : c ≠ 'É') (h8 : c ≠ 'Í')
    (h9 : c ≠ 'Ó') (h10 : c ≠ 'Ú') (h11 : c ≠ 'ü') (h12 : c ≠ 'Ü') (h13 : c ≠ 'ñ')
    (h14 : c ≠ 'Ñ') : nfdChar c = [c] := by
  unfold nfdChar
  rw [if_neg h1, if_neg h2, if_neg h3, if_neg h4, if_neg h5, if_neg h6, if_neg h7,
      if_neg h8, if_neg h9, if_neg h10, if_neg h11, if_neg h12, if_neg h13, if_neg h14]

lemma nfdChar_ascii {c : Char} (h : c.toNat < 128) : nfdChar c = [c] :=
  nfdChar_of_ne
    (by rintro rfl; exact absurd h (by decide)) (by rintro rfl; exact absurd h (by decide))
    (by rintro rfl; exact absurd h (by decide)) (by rintro rfl; exact absurd h (by decide))
    (by rintro rfl; exact absurd h (by decide)) (by rintro rfl; exact absurd h (by decide))
    (by rintro rfl; exact absurd h (by decide)) (by rintro rfl; exact absurd h (by decide))
    (by rintro rfl; exact absurd h (by decide)) (by rintro rfl; exact absurd h (by decide))
    (by rintro rfl; exact absurd h (by decide)) (by rintro rfl; exact absurd h (by decide))
    (by rintro rfl; exact absurd h (by decide)) (by rintro rfl; exact absurd h (by decide))

lemma nfdChar_stable {c d : Char} (hd : d ∈ nfdChar c) : nfdChar d = [d] := by
  by_cases h1 : c = 'á'
  · subst h1; rw [show nfdChar 'á' = ['a', '́'] from rfl] at hd
    simp only [List.mem_cons, List.not_mem_nil, or_false] at hd
    rcases hd with rfl | rfl <;> rfl
  by_cases h2 : c = 'é'
  · subst h2; rw [show nfdChar 'é' = ['e', '́'] from rfl] at hd
    simp only [List.mem_cons, List.not_mem_nil, or_false] at hd
    rcases hd with rfl | rfl <;> rfl
  by_cases h3 : c = 'í'
  · subst h3; rw [show nfdChar 'í' = ['i', '́'] from rfl] at hd
    simp only [List.mem_cons, List.not_mem_nil, or_false] at hd
    rcases hd with rfl | rfl <;> rfl
  by_cases h4 : c = 'ó'
  · subst h4; rw [show nfdChar 'ó' = ['o', '́'] from rfl] at hd
    simp only [List.mem_cons, List.not_mem_nil, or_false] at hd
    rcases hd with rfl | rfl <;> rfl
  by_cases h5 : c = 'ú'
  · subst h5; rw [show nfdChar 'ú' = ['u', '́'] from rfl] at hd
    simp only [List.mem_cons, List.not_mem_nil, or_false] at hd
    rcases hd with rfl | rfl <;> rfl
  by_cases h6 : c = 'Á'
  · subst h6; rw [show nfdChar 'Á' = ['A', '́'] from rfl] at hd
    simp only [List.mem_cons, List.not_mem_nil, or_false] at hd
    rcases hd with rfl | rfl <;> rfl
  by_cases h7 : c = 'É'
  · subst h7; rw [show nfdChar 'É' = ['E', '́'] from rfl] at hd
    simp only [List.mem_cons, List.not_mem_nil, or_false] at hd
    rcases hd with rfl | rfl <;> rfl
  by_cases h8 : c = 'Í'
  · subst h8; rw [show nfdChar 'Í' = ['I', '́'] from rfl] at hd
    simp only [List.mem_cons, List.not_mem_nil, or_false] at hd
    rcases hd with rfl | rfl <;> rfl
  by_cases h9 : c = 'Ó'
  · subst h9; rw [show nfdChar 'Ó' = ['O', '́'] from rfl] at hd
    simp only [List.mem_cons, List.not_mem_nil, or_false] at hd
    rcases hd with rfl | rfl <;> rfl
  by_cases h10 : c = 'Ú'
  · subst h10; rw [show nfdChar 'Ú' = ['U', '́'] from rfl] at hd
    simp only [List.mem_cons, List.not_mem_nil, or_false] at hd
    rcases hd with rfl | rfl <;> rfl
  by_cases h11 : c = 'ü'
  · subst h11; rw [show nfdChar 'ü' = ['u', '̈'] from rfl] at hd
    simp only [List.mem_cons, List.not_mem_nil, or_false] at hd
    rcases hd with rfl | rfl <;> rfl
  by_cases h12 : c = 'Ü'
  · subst h12; rw [show nfdChar 'Ü' = ['U', '̈'] from rfl] at hd
    simp only [List.mem_cons, List.not_mem_nil, or_false] at hd
    rcases hd with rfl | rfl <;> rfl
  by_cases h13 : c = 'ñ'
  · subst h13; rw [show nfdChar 'ñ' = ['n', '̃'] from rfl] at hd
    simp only [List.mem_cons, List.not_mem_nil, or_false] at hd
    rcases hd with rfl | rfl <;> rfl
  by_cases h14 : c = 'Ñ'
  · subst h14; rw [show nfdChar 'Ñ' = ['N', '̃'] from rfl] at hd
    simp only [List.mem_cons, List.not_mem_nil, or_false] at hd
    rcases hd with rfl | rfl <;> rfl
  rw [nfdChar_of_ne h1 h2 h3 h4 h5 h6 h7 h8 h9 h10 h11 h12 h13 h14] at hd
  simp only [List.mem_singleton] at hd
  subst hd
  exact nfdChar_of_ne h1 h2 h3 h4 h5 h6 h7 h8 h9 h10 h11 h12 h13 h14

lemma composeChar_decomp {b m c : Char} (h : composeChar b m = some c) :
    nfdChar c = [b, m] := by
  unfold composeChar at h
  by_cases h1 : b = 'a' ∧ m = '́'
  · rw [if_pos h1] at h; obtain ⟨rfl, rfl⟩ := h1; injection h with h; subst h; rfl
  rw [if_neg h1] at h
  by_cases h2 : b = 'e' ∧ m = '́'
  · rw [if_pos h2] at h; obtain ⟨rfl, rfl⟩ := h2; injection h with h; subst h; rfl
  rw [if_neg h2] at h
  by_cases h3 : b = 'i' ∧ m = '́'
  · rw [if_pos h3] at h; obtain ⟨rfl, rfl⟩ := h3; injection h with h; subst h; rfl
  rw [if_neg h3] at h
  by_cases h4 : b = 'o' ∧ m = '́'
  · rw [if_pos h4] at h; obtain ⟨rfl, rfl⟩ := h4; injection h with h; subst h; rfl
  rw [if_neg h4] at h
  by_cases h5 : b = 'u' ∧ m = '́'
  · rw [if_pos h5] at h; obtain ⟨rfl, rfl⟩ := h5; injection h with h; subst h; rfl
  rw [if_neg h5] at h
  by_cases h6 : b = 'A' ∧ m = '́'
  · rw [if_pos h6] at h; obtain ⟨rfl, rfl⟩ := h6; injection h with h; subst h; rfl
  rw [if_neg h6] at h
  by_cases h7 : b = 'E' ∧ m = '́'
  · rw [if_pos h7] at h; obtain ⟨rfl, rfl⟩ := h7; injection h with h; subst h; rfl
  rw [if_neg h7] at h
  by_cases h8 : b = 'I' ∧ m = '́'
  · rw [if_pos h8] at h; obtain ⟨rfl, rfl⟩ := h8; injection h with h; subst h; rfl
  rw [if_neg h8] at h
  by_cases h9 : b = 'O' ∧ m = '́'
  · rw [if_pos h9] at h; obtain ⟨rfl, rfl⟩ := h9; injection h with h; subst h; rfl
  rw [if_neg h9] at h
  by_cases h10 : b = 'U' ∧ m = '́'
  · rw [if_pos h10] at h; obtain ⟨rfl, rfl⟩ := h10; injection h with h; subst h; rfl
  rw [if_neg h10] at h
  by_cases h11 : b = 'u' ∧ m = '̈'
  · rw [if_pos h11] at h; obtain ⟨rfl, rfl⟩ := h11; injection h with h; subst h; rfl
  rw [if_neg h11] at h
  by_cases h12 : b = 'U' ∧ m = '̈'
  · rw [if_pos h12] at h; obtain ⟨rfl, rfl⟩ := h12; injection h with h; subst h; rfl
  rw [if_neg h12] at h
  by_cases h13 : b = 'n' ∧ m = '̃'
  · rw [if_pos h13] at h; obtain ⟨rfl, rfl⟩ := h13; injection h with h; subst h; rfl
  rw [if_neg h13] at h
  by_cases h14 : b = 'N' ∧ m = '̃'
  · rw [if_pos h14] at h; obtain ⟨rfl, rfl⟩ := h14; injection h with h; subst h; rfl
  rw [if_neg h14] at h
  exact Option.noConfusion h

lemma nfdStr_append (a b : PStr) : nfdStr (a ++ b) = nfdStr a ++ nfdStr b := by
  induction a with
  | nil => rfl
  | cons c r ih => simp [nfdStr, ih]

lemma nfdStr_eq_self {l : PStr} (h : ∀ c ∈ l, nfdChar c = [c]) : nfdStr l = l := by
  induction l with
  | nil => rfl
  | cons c r ih =>
    have hc := h c (List.mem_cons_self c r)
    have hr := ih fun d hd => h d (List.mem_cons_of_mem _ hd)
    simp [nfdStr, hc, hr]

lemma nfdStr_stable {l : PStr} {d : Char} (hd : d ∈ nfdStr l) : nfdChar d = [d] := by
  induction l with
  | nil => simp [nfdStr] at hd
  | cons c r ih =>
    simp only [nfdStr, List.mem_append] at hd
    rcases hd with hd | hd
    · exact nfdChar_stable hd
    · exact ih hd

theorem nfd_nfcAux : ∀ l : PStr, (∀ c ∈ l, nfdChar c = [c]) → nfdStr (nfcAux l) = l
  | [], _ => rfl
  | [c], h => by simp [nfcAux, nfdStr, h c (by simp)]
  | c₁ :: c₂ :: rest, h => by
    unfold nfcAux
    cases hcp : composeChar c₁ c₂ with
    | some c =>
      have hrest : ∀ d ∈ rest, nfdChar d = [d] := fun d hd =>
        h d (List.mem_cons_of_mem _ (List.mem_cons_of_mem _ hd))
      simp [nfdStr, composeChar_decomp hcp, nfd_nfcAux rest hrest]
    | none =>
      have h2 : ∀ d ∈ c₂ :: rest, nfdChar d = [d] := fun d hd =>
        h d (List.mem_cons_of_mem _ hd)
      simp [nfdStr, h c₁ (List.mem_cons_self _ _), nfd_nfcAux (c₂ :: rest) h2]

/-- NFC never changes the canonical decomposition: the key invariance that
makes the NFC pre-pass of src/app.py:234 invisible to `normalize_name`. -/
lemma nfdStr_nfc (s : PStr) : nfdStr (nfc s) = nfdStr s :=
  nfd_nfcAux (nfdStr s) fun _ hd => nfdStr_stable hd

lemma normalize_name_nfc (s : PStr) : normalize_name (nfc s) = normalize_name s := by
  unfold normalize_name
  rw [nfdStr_nfc]

/-! ### Splitting and joining -/

lemma pySplitAux_nil (acc : PStr) :
    pySplitAux [] acc = if acc = [] then [] else [acc.reverse] := rfl

lemma pySplitAux_cons (c : Char) (rest acc : PStr) :
    pySplitAux (c :: rest) acc =
      if pyIsSpaceCh c then
        if acc = [] then pySplitAux rest [] else acc.reverse :: pySplitAux rest []
      else pySplitAux rest (c :: acc) := rfl

theorem pySplitAux_tokens {Q : Char → Prop} :
    ∀ (l acc : PStr), (∀ c ∈ l, pyIsSpaceCh c = true ∨ Q c) →
      (∀ c ∈ acc, Q c ∧ pyIsSpaceCh c = false) →
      ∀ t ∈ pySplitAux l acc, t ≠ [] ∧ ∀ c ∈ t, Q c ∧ pyIsSpaceCh c = false
  | [], acc, _, hacc, t, ht => by
    rw [pySplitAux_nil] at ht
    split_ifs at ht with h
    · simp at ht
    · simp only [List.mem_singleton] at ht
      subst ht
      exact ⟨by simp [h], fun c hc => hacc c (by simpa using hc)⟩
  | a :: rest, acc, hl, hacc, t, ht => by
    rw [pySplitAux_cons] at ht
    split_ifs at ht with hsp hemp
    · exact pySplitAux_tokens rest [] (fun c hc => hl c (List.mem_cons_of_mem _ hc))
        (by simp) t ht
    · rcases List.mem_cons.mp ht with rfl | ht'
      · exact ⟨by simp [hemp], fun c hc => hacc c (by simpa using hc)⟩
      · exact pySplitAux_tokens rest [] (fun c hc => hl c (List.mem_cons_of_mem _ hc))
          (by simp) t ht'
    · rw [Bool.not_eq_true] at hsp
      have hQa : Q a := by
        rcases hl a (List.mem_cons_self _ _) with h | h
        · rw [hsp] at h; exact absurd h (by simp)
        · exact h
      exact pySplitAux_tokens rest (a :: acc)
        (fun c hc => hl c (List.mem_cons_of_mem _ hc))
        (fun c hc => by
          rcases List.mem_cons.mp hc with rfl | hc'
          · exact ⟨hQa, hsp⟩
          · exact hacc c hc') t ht

lemma pySplit_tokens {Q : Char → Prop} {l : PStr}
    (hl : ∀ c ∈ l, pyIsSpaceCh c = true ∨ Q c) :
    ∀ t ∈ pySplit l, t ≠ [] ∧ ∀ c ∈ t, Q c ∧ pyIsSpaceCh c = false :=
  pySplitAux_tokens l [] hl (by simp)

theorem pySplitAux_chain :
    ∀ (t l acc : PStr), (∀ c ∈ t, pyIsSpaceCh c = false) →
      pySplitAux (t ++ l) acc = pySplitAux l (t.reverse ++ acc)
  | [], l, acc, _ => by simp
  | c :: t', l, acc, h => by
    have hc : pyIsSpaceCh c = false := h c (List.mem_cons_self _ _)
    rw [List.cons_append, pySplitAux_cons, if_neg (by simp [hc]),
      pySplitAux_chain t' l (c :: acc) (fun d hd => h d (List.mem_cons_of_mem _ hd))]
    simp

theorem pySplit_joinSpace :
    ∀ ts : List PStr, (∀ t ∈ ts, t ≠ [] ∧ ∀ c ∈ t, pyIsSpaceCh c = false) →
      pySplit (joinSpace ts) = ts
  | [], _ => rfl
  | [t], h => by
    obtain ⟨hne, hch⟩ := h t (by simp)
    show pySplitAux t [] = [t]
    have chain := pySplitAux_chain t [] [] hch
    rw [List.append_nil] at chain
    rw [chain, pySplitAux_nil, if_neg (by simp [hne])]
    simp
  | t :: t' :: ts', h => by
    obtain ⟨hne, hch⟩ := h t (by simp)
    have hrest : ∀ u ∈ t' :: ts', u ≠ [] ∧ ∀ c ∈ u, pyIsSpaceCh c = false :=
      fun u hu => h u (List.mem_cons_of_mem _ hu)
    show pySplitAux (t ++ ' ' :: joinSpace (t' :: ts')) [] = t :: t' :: ts'
    rw [pySplitAux_chain t (' ' :: joinSpace (t' :: ts')) [] hch,
      pySplitAux_cons, if_pos (by decide), if_neg (by simp [hne])]
    have ih := pySplit_joinSpace (t' :: ts') hrest
    unfold pySplit at ih
    rw [ih]
    simp

theorem mem_joinSpace :
    ∀ (ts : List PStr) (c : Char), c ∈ joinSpace ts → c = ' ' ∨ ∃ t ∈ ts, c ∈ t
  | [], c, hc => by simp [joinSpace] at hc
  | [t], c, hc => Or.inr ⟨t, by simp, hc⟩
  | t :: t' :: ts', c, hc => by
    have hc' : c ∈ t ++ ' ' :: joinSpace (t' :: ts') := hc
    rcases List.mem_append.mp hc' with h | h
    · exact Or.inr ⟨t, by simp, h⟩
    · rcases List.mem_cons.mp h with rfl | h'
      · exact Or.inl rfl
      · rcases mem_joinSpace (t' :: ts') c h' with h'' | ⟨u, hu, hcu⟩
        · exact Or.inl h''
        · exact Or.inr ⟨u, List.mem_cons_of_mem _ hu, hcu⟩

theorem joinSpace_ne_nil :
    ∀ (t : PStr) (ts : List PStr), t ≠ [] → joinSpace (t :: ts) ≠ []
  | t, [], hne => by simpa [joinSpace] using hne
  | t, t' :: ts', hne => by
    show t ++ ' ' :: joinSpace (t' :: ts') ≠ []
    simp

theorem joinSpace_head_mem :
    ∀ (ts : List PStr), (∀ t ∈ ts, t ≠ []) →
      ∀ c, (joinSpace ts).head? = some c → ∃ t ∈ ts, c ∈ t
  | [], _, c, hc => by simp [joinSpace] at hc
  | [t], h, c, hc => by
    refine ⟨t, by simp, ?_⟩
    have ht : joinSpace [t] = t := rfl
    rw [ht] at hc
    exact List.mem_of_mem_head? (by rw [hc]; rfl)
  | t :: t' :: ts', h, c, hc => by
    have hne := h t (by simp)
    cases t with
    | nil => exact absurd rfl hne
    | cons a r =>
      refine ⟨a :: r, by simp, ?_⟩
      have hj : joinSpace ((a :: r) :: t' :: ts') = a :: (r ++ ' ' :: joinSpace (t' :: ts')) := rfl
      rw [hj] at hc
      simp only [List.head?_cons, Option.some.injEq] at hc
      subst hc
      exact List.mem_cons_self _ _

theorem joinSpace_getLast_mem :
    ∀ (ts : List PStr), (∀ t ∈ ts, t ≠ []) →
      ∀ c, (joinSpace ts).getLast? = some c → ∃ t ∈ ts, c ∈ t
  | [], _, c, hc => by simp [joinSpace] at hc
  | [t], h, c, hc => by
    refine ⟨t, by simp, ?_⟩
    have ht : joinSpace [t] = t := rfl
    rw [ht] at hc
    exact List.mem_of_getLast?_eq_some hc
  | t :: t' :: ts', h, c, hc => by
    have hrest : ∀ u ∈ t' :: ts', u ≠ [] := fun u hu => h u (List.mem_cons_of_mem _ hu)
    have hjoin : joinSpace (t :: t' :: ts') = t ++ ' ' :: joinSpace (t' :: ts') := rfl
    rw [hjoin, List.getLast?_append] at hc
    have hj : joinSpace (t' :: ts') ≠ [] :=
      joinSpace_ne_nil t' ts' (hrest t' (List.mem_cons_self _ _))
    cases hg : (joinSpace (t' :: ts')).getLast? with
    | none => exact absurd (List.getLast?_eq_none_iff.mp hg) hj
    | some x =>
      have hlast : (' ' :: joinSpace (t' :: ts')).getLast? = some x := by
        rw [List.getLast?_cons, hg]; rfl
      rw [hlast] at hc
      simp only [Option.or_some, Option.some.injEq] at hc
      subst hc
      obtain ⟨u, hu, hcu⟩ := joinSpace_getLast_mem (t' :: ts') hrest x hg
      exact ⟨u, List.mem_cons_of_mem _ hu, hcu⟩

/-! ### Character classes and lower-casing -/

lemma toNat_ofNat_valid {n : Nat} (h : n < 55296) : (Char.ofNat n).toNat = n := by
  rw [Char.ofNat, dif_pos (Or.inl h)]
  rfl

lemma asciiLower_of_alpha {c : Char} (h : pyIsAlphaCh c = true) :
    97 ≤ (asciiLower c).toNat ∧ (asciiLower c).toNat ≤ 122 := by
  unfold pyIsAlphaCh at h
  simp only [Bool.or_eq_true, Bool.and_eq_true, decide_eq_true_eq] at h
  unfold asciiLower
  rcases h with ⟨h1, h2⟩ | ⟨h1, h2⟩
  · rw [if_pos (by simp; omega), toNat_ofNat_valid (by omega)]
    omega
  · rw [if_neg (by simp; omega)]
    omega

lemma asciiLower_of_space {c : Char} (h : pyIsSpaceCh c = true) : asciiLower c = c := by
  unfold pyIsSpaceCh at h
  simp only [Bool.or_eq_true, Bool.and_eq_true, decide_eq_true_eq] at h
  unfold asciiLower
  rw [if_neg (by simp; omega)]

lemma asciiLower_of_lc {c : Char} (h1 : 97 ≤ c.toNat) (h2 : c.toNat ≤ 122) :
    asciiLower c = c := by
  unfold asciiLower
  rw [if_neg (by simp; omega)]

lemma pyIsSpaceCh_of_lc {c : Char} (h1 : 97 ≤ c.toNat) (h2 : c.toNat ≤ 122) :
    pyIsSpaceCh c = false := by
  unfold pyIsSpaceCh
  simp only [Bool.or_eq_false_iff, Bool.and_eq_false_iff]
  refine ⟨⟨by simp; omega, ?_⟩, ?_⟩ <;> simp <;> omega

lemma pyIsAlphaCh_of_lc {c : Char} (h1 : 97 ≤ c.toNat) (h2 : c.toNat ≤ 122) :
    pyIsAlphaCh c = true := by
  unfold pyIsAlphaCh
  simp only [Bool.or_eq_true, Bool.and_eq_true, decide_eq_true_eq]
  omega

lemma map_id_of {α : Type} {f : α → α} :
    ∀ l : List α, (∀ c ∈ l, f c = c) → l.map f = l
  | [], _ => rfl
  | c :: r, h => by
    rw [List.map_cons, h c (List.mem_cons_self _ _),
      map_id_of r fun d hd => h d (List.mem_cons_of_mem _ hd)]

lemma mem_pyStrip {l : PStr} {c : Char} (h : c ∈ pyStrip l) : c ∈ l := by
  unfold pyStrip at h
  rw [List.mem_reverse] at h
  have h2 := (List.dropWhile_sublist pyIsSpaceCh).subset h
  rw [List.mem_reverse] at h2
  exact (List.dropWhile_sublist pyIsSpaceCh).subset h2

lemma pyStrip_eq_self {l : PStr}
    (hh : ∀ c, l.head? = some c → pyIsSpaceCh c = false)
    (hl : ∀ c, l.getLast? = some c → pyIsSpaceCh c = false) :
    pyStrip l = l := by
  unfold pyStrip
  have h1 : l.dropWhile pyIsSpaceCh = l := by
    cases l with
    | nil => rfl
    | cons a t =>
      rw [List.dropWhile_cons, if_neg (by simp [hh a rfl])]
  rw [h1]
  have h2 : l.reverse.dropWhile pyIsSpaceCh = l.reverse := by
    cases hrev : l.reverse with
    | nil => rfl
    | cons a t =>
      have ha : l.getLast? = some a := by
        rw [List.getLast?_eq_head?_reverse, hrev]
        rfl
      rw [List.dropWhile_cons, if_neg (by simp [hl a ha])]
  rw [h2, List.reverse_reverse]

/-! ### The canonical shape of `normalize_name` outputs -/

/-- Every output of `normalize_name` is a join of at most two nonempty
tokens of lower-case ASCII letters. -/
lemma normalize_name_shape (x : PStr) :
    ∃ ts : List PStr, normalize_name x = joinSpace ts ∧ ts.length ≤ 2 ∧
      ∀ t ∈ ts, t ≠ [] ∧ ∀ c ∈ t, 97 ≤ c.toNat ∧ c.toNat ≤ 122 := by
  refine ⟨_, rfl, ?_, ?_⟩
  · rw [List.length_take]
    exact min_le_left _ _
  · intro t ht
    have ht' := List.mem_of_mem_take ht
    have hm : ∀ c ∈ ((pyStrip (((nfdStr x).filter
        (fun c => isAsciiCh c && (pyIsAlphaCh c || pyIsSpaceCh c))).filter
        (fun c => pyIsAlnumCh c || pyIsSpaceCh c))).map asciiLower),
        pyIsSpaceCh c = true ∨ (97 ≤ c.toNat ∧ c.toNat ≤ 122) := by
      intro c hc
      rw [List.mem_map] at hc
      obtain ⟨d, hd, rfl⟩ := hc
      have hd1 := mem_pyStrip hd
      rw [List.mem_filter] at hd1
      obtain ⟨hd2, _⟩ := hd1
      rw [List.mem_filter] at hd2
      obtain ⟨_, hd3⟩ := hd2
      simp only [Bool.and_eq_true, Bool.or_eq_true] at hd3
      rcases hd3.2 with h | h
      · exact Or.inr (asciiLower_of_alpha h)
      · rw [asciiLower_of_space h]
        exact Or.inl h
    obtain ⟨hne, hch⟩ := pySplit_tokens hm t ht'
    exact ⟨hne, fun c hc => (hch c hc).1⟩

/-- Strings of the canonical shape are fixed points of `normalize_name`. -/
lemma normalize_name_fixed {ts : List PStr} (hlen : ts.length ≤ 2)
    (htok : ∀ t ∈ ts, t ≠ [] ∧ ∀ c ∈ t, 97 ≤ c.toNat ∧ c.toNat ≤ 122) :
    normalize_name (joinSpace ts) = joinSpace ts := by
  have hchars : ∀ c ∈ joinSpace ts, (97 ≤ c.toNat ∧ c.toNat ≤ 122) ∨ c = ' ' := by
    intro c hc
    rcases mem_joinSpace ts c hc with rfl | ⟨t, ht, hct⟩
    · exact Or.inr rfl
    · exact Or.inl ((htok t ht).2 c hct)
  have hascii : ∀ c ∈ joinSpace ts, c.toNat < 128 := by
    intro c hc
    rcases hchars c hc with ⟨h1, h2⟩ | rfl
    · omega
    · decide
  have hf1 : (joinSpace ts).filter (fun c => isAsciiCh c && (pyIsAlphaCh c || pyIsSpaceCh c)) =
      joinSpace ts := by
    apply List.filter_eq_self.mpr
    intro c hc
    rcases hchars c hc with ⟨h1, h2⟩ | rfl
    · rw [pyIsAlphaCh_of_lc h1 h2]
      simp only [Bool.true_or, Bool.and_true, isAsciiCh, decide_eq_true_eq]
      omega
    · decide
  have hf2 : (joinSpace ts).filter (fun c => pyIsAlnumCh c || pyIsSpaceCh c) =
      joinSpace ts := by
    apply List.filter_eq_self.mpr
    intro c hc
    rcases hchars c hc with ⟨h1, h2⟩ | rfl
    · simp [pyIsAlnumCh, pyIsAlphaCh_of_lc h1 h2]
    · decide
  have hstrip : pyStrip (joinSpace ts) = joinSpace ts := by
    apply pyStrip_eq_self
    · intro c hc
      obtain ⟨t, ht, hct⟩ := joinSpace_head_mem ts (fun t ht => (htok t ht).1) c hc
      obtain ⟨h1, h2⟩ := (htok t ht).2 c hct
      exact pyIsSpaceCh_of_lc h1 h2
    · intro c hc
      obtain ⟨t, ht, hct⟩ := joinSpace_getLast_mem ts (fun t ht => (htok t ht).1) c hc
      obtain ⟨h1, h2⟩ := (htok t ht).2 c hct
      exact pyIsSpaceCh_of_lc h1 h2
  have hmap : (joinSpace ts).map asciiLower = joinSpace ts := by
    apply map_id_of
    intro c hc
    rcases hchars c hc with ⟨h1, h2⟩ | rfl
    · exact asciiLower_of_lc h1 h2
    · decide
  have hsplit : pySplit (joinSpace ts) = ts := by
    apply pySplit_joinSpace
    intro t ht
    refine ⟨(htok t ht).1, fun c hc => ?_⟩
    obtain ⟨h1, h2⟩ := (htok t ht).2 c hc
    exact pyIsSpaceCh_of_lc h1 h2
  unfold normalize_name
  rw [nfdStr_eq_self fun c hc => nfdChar_ascii (hascii c hc), hf1, hf2, hstrip, hmap,
    hsplit, List.take_of_length_le hlen]

/-- Idempotence of the canonicalizer. -/
lemma normalize_name_idem (x : PStr) :
    normalize_name (normalize_name x) = normalize_name x := by
  obtain ⟨ts, hts, hlen, htok⟩ := normalize_name_shape x
  rw [hts]
  exact normalize_name_fixed hlen htok

/-! ### Facts about the fuzzy-match arithmetic -/

lemma pairTenths_le_10 (w1 w2 : PStr) : pairTenths w1 w2 ≤ 10 := by
  unfold pairTenths
  split_ifs <;> omega

lemma pairTenths_eq_10 {w1 w2 : PStr} (h : pairTenths w1 w2 = 10) : w1 = w2 := by
  by_contra hne
  unfold pairTenths at h
  rw [if_neg hne] at h
  split_ifs at h
  omega

lemma pairTenths_ne_10_le_9 {w1 w2 : PStr} (h : pairTenths w1 w2 ≠ 10) :
    pairTenths w1 w2 ≤ 9 := by
  have := pairTenths_le_10 w1 w2
  omega

/-- The normalized token lists of two distinct canonical names cannot give a
full score of 20 tenths, so a fuzzy confidence never exceeds 95. -/
lemma calculate_le_95 {n1 n2 : PStr} (h : normalize_name n1 ≠ normalize_name n2) :
    calculate_match_percentage n1 n2 ≤ 95 := by
  unfold calculate_match_percentage
  rw [if_neg h]
  split_ifs with hw
  · omega
  · obtain ⟨ts1, hts1, hlen1, htok1⟩ := normalize_name_shape n1
    obtain ⟨ts2, hts2, hlen2, htok2⟩ := normalize_name_shape n2
    have hgood : ∀ (ts : List PStr),
        (∀ t ∈ ts, t ≠ [] ∧ ∀ c ∈ t, 97 ≤ c.toNat ∧ c.toNat ≤ 122) →
        ∀ t ∈ ts, t ≠ [] ∧ ∀ c ∈ t, pyIsSpaceCh c = false := by
      intro ts htok t ht
      refine ⟨(htok t ht).1, fun c hc => ?_⟩
      obtain ⟨hc1, hc2⟩ := (htok t ht).2 c hc
      exact pyIsSpaceCh_of_lc hc1 hc2
    have hsp1 : pySplit (normalize_name n1) = ts1 := by
      rw [hts1]; exact pySplit_joinSpace ts1 (hgood ts1 htok1)
    have hsp2 : pySplit (normalize_name n2) = ts2 := by
      rw [hts2]; exact pySplit_joinSpace ts2 (hgood ts2 htok2)
    rw [hsp1, hsp2, List.take_of_length_le hlen1, List.take_of_length_le hlen2]
    rw [hsp1, hsp2] at hw
    push_neg at hw
    obtain ⟨hne1, hne2⟩ := hw
    have hne : ts1 ≠ ts2 := by
      intro hcontra
      exact h (by rw [hts1, hts2, hcontra])
    have hbound : (List.zipWith pairTenths ts1 ts2).sum ≤ 19 := by
      rcases ts1 with _ | ⟨a, ts1'⟩
      · exact absurd rfl hne1
      rcases ts2 with _ | ⟨c, ts2'⟩
      · exact absurd rfl hne2
      rcases ts1' with _ | ⟨b, ts1''⟩
      · have := pairTenths_le_10 a c
        simp only [List.zipWith_cons_cons, List.zipWith_nil_left, List.sum_cons, List.sum_nil]
        omega
      rcases ts1'' with _ | ⟨e1, r1⟩
      swap
      · simp only [List.length_cons] at hlen1
        omega
      rcases ts2' with _ | ⟨d, ts2''⟩
      · have := pairTenths_le_10 a c
        simp only [List.zipWith_cons_cons, List.zipWith_nil_left, List.zipWith_nil_right,
          List.sum_cons, List.sum_nil]
        omega
      rcases ts2'' with _ | ⟨e2, r2⟩
      swap
      · simp only [List.length_cons] at hlen2
        omega
      by_cases hac : pairTenths a c = 10
      · have hbd : pairTenths b d ≠ 10 := fun hbd =>
          hne (by rw [pairTenths_eq_10 hac, pairTenths_eq_10 hbd])
        have h1 := pairTenths_le_10 a c
        have h2 := pairTenths_ne_10_le_9 hbd
        simp only [List.zipWith_cons_cons, List.zipWith_nil_left, List.sum_cons, List.sum_nil]
        omega
      · have h1 := pairTenths_ne_10_le_9 hac
        have h2 := pairTenths_le_10 b d
        simp only [List.zipWith_cons_cons, List.zipWith_nil_left, List.sum_cons, List.sum_nil]
        omega
    omega

/-! ### Facts about the roster matcher -/

lemma fuzzyStep_le {s : PStr} {bound : Nat} {acc : Option (Nat × PStr) × Nat}
    {p : Nat × PStr} (hp : calculate_match_percentage s p.2 ≤ bound)
    (hacc : acc.2 ≤ bound) : (fuzzyStep s acc p).2 ≤ bound := by
  unfold fuzzyStep
  split_ifs <;> simpa

lemma foldl_fuzzyStep_le {s : PStr} {bound : Nat} :
    ∀ (l : List (Nat × PStr)) (acc : Option (Nat × PStr) × Nat),
      (∀ p ∈ l, calculate_match_percentage s p.2 ≤ bound) → acc.2 ≤ bound →
      (l.foldl (fuzzyStep s) acc).2 ≤ bound
  | [], acc, _, hacc => hacc
  | p :: l, acc, hl, hacc => by
    rw [List.foldl_cons]
    exact foldl_fuzzyStep_le l (fuzzyStep s acc p)
      (fun q hq => hl q (List.mem_cons_of_mem _ hq))
      (fuzzyStep_le (hl p (List.mem_cons_self _ _)) hacc)

lemma mem_enumFrom_snd :
    ∀ (l : List PStr) (n : Nat) (p : Nat × PStr), p ∈ l.enumFrom n → p.2 ∈ l
  | [], _, _, hp => by simp at hp
  | a :: l, n, p, hp => by
    rw [List.enumFrom_cons] at hp
    rcases List.mem_cons.mp hp with rfl | hp'
    · exact List.mem_cons_self _ _
    · exact List.mem_cons_of_mem _ (mem_enumFrom_snd l (n + 1) p hp')

lemma fuzzyScan_le {s : PStr} {names : List PStr} {bound : Nat}
    (h : ∀ n ∈ names, calculate_match_percentage s n ≤ bound) :
    (fuzzyScan s names).2 ≤ bound := by
  unfold fuzzyScan
  exact foldl_fuzzyStep_le names.enum (none, 0)
    (fun p hp => h p.2 (mem_enumFrom_snd names 0 p hp)) (Nat.zero_le _)

lemma exactIndex_none_iff {nf : PStr} {names : List PStr} :
    exactIndex nf names = none ↔ ∀ n ∈ names, normalize_name (nfc n) ≠ nf := by
  unfold exactIndex
  simp only [List.findIdx?_eq_none_iff, beq_eq_false_iff_ne, ne_eq]

lemma exactIndex_some {nf : PStr} {names : List PStr} {i : Nat}
    (h : exactIndex nf names = some i) :
    ∃ hlt : i < names.length, normalize_name (nfc (names.get ⟨i, hlt⟩)) = nf := by
  unfold exactIndex at h
  rw [List.findIdx?_eq_some_iff_getElem] at h
  obtain ⟨hlt, hp, _⟩ := h
  exact ⟨hlt, by simpa [beq_iff_eq] using hp⟩

/-- C6: a match confidence of 100 occurs exactly when some roster name is
canonically equal to the candidate; an accepted fuzzy match scores in
[80, 100); a best fuzzy score below 80 yields no match with confidence 0. -/
theorem match_confidence_invariants (studentName : PStr) (names : List PStr) :
    ((matchRoster studentName names).percentage = 100 ↔
      ∃ n ∈ names, normalize_name (nfc n) = normalize_name studentName) ∧
    ((matchRoster studentName names).status = MatchStatus.success →
      (matchRoster studentName names).fuzzyRan = true →
      80 ≤ (matchRoster studentName names).percentage ∧
        (matchRoster studentName names).percentage < 100) ∧
    (exactIndex (normalize_name studentName) names = none →
      (fuzzyScan studentName names).2 < 80 →
      (matchRoster studentName names).status = MatchStatus.noMatch ∧
        (matchRoster studentName names).percentage = 0) := by
  unfold matchRoster
  cases hex : exactIndex (normalize_name studentName) names with
  | some i =>
    obtain ⟨hlt, hni⟩ := exactIndex_some hex
    dsimp only
    refine ⟨⟨fun _ => ⟨names.get ⟨i, hlt⟩, List.get_mem _ _ hlt, hni⟩, fun _ => rfl⟩, ?_, ?_⟩
    · intro _ hfr
      exact absurd (show false = true from hfr) (by decide)
    · intro hnone
      exact Option.noConfusion hnone
  | none =>
    have hall : ∀ n ∈ names, normalize_name (nfc n) ≠ normalize_name studentName :=
      exactIndex_none_iff.mp hex
    have hle95 : (fuzzyScan studentName names).2 ≤ 95 := by
      apply fuzzyScan_le
      intro n hn
      apply calculate_le_95
      intro hcontra
      exact hall n hn (by rw [normalize_name_nfc, ← hcontra])
    have hnoex : ¬ ∃ n ∈ names, normalize_name (nfc n) = normalize_name studentName := by
      rintro ⟨n, hn, hcontra⟩
      exact hall n hn hcontra
    cases hfs : fuzzyScan studentName names with
    | mk bm bs =>
      rw [hfs] at hle95
      dsimp only at hle95
      cases bm with
      | some p =>
        cases p with
        | mk j n =>
          dsimp only
          by_cases hbs : 80 ≤ bs
          · rw [if_pos hbs]
            refine ⟨⟨fun h100 => absurd (show bs = 100 from h100) (by omega),
              fun hx => absurd hx hnoex⟩,
              fun _ _ => ⟨hbs, show bs < 100 by omega⟩,
              fun _ hlt80 => absurd (show bs < 80 from hlt80) (by omega)⟩
          · rw [if_neg hbs]
            refine ⟨⟨fun h0 => absurd (show (0 : Nat) = 100 from h0) (by omega),
              fun hx => absurd hx hnoex⟩, ?_, fun _ _ => ⟨rfl, rfl⟩⟩
            intro hst
            exact absurd (show MatchStatus.noMatch = MatchStatus.success from hst) (by decide)
      | none =>
        dsimp only
        refine ⟨⟨fun h0 => absurd (show (0 : Nat) = 100 from h0) (by omega),
          fun hx => absurd hx hnoex⟩, ?_, fun _ _ => ⟨rfl, rfl⟩⟩
        intro hst
        exact absurd (show MatchStatus.noMatch = MatchStatus.success from hst) (by decide)

/-! ### The specification's wording of the fuzzy formula (for C1) -/

/-- Pair weight exactly as claim C1 words it, in exact rational arithmetic:
full match 1; partial match 9/10 when both token lengths are at least 3 and
the fraction of candidate-token characters present in the roster token —
read literally, the denominator is the candidate token's length — is at
least 0.8. -/
def claimPairWeight (w1 w2 : PStr) : ℚ :=
  if w1 = w2 then 1
  else if 3 ≤ w1.length ∧ 3 ≤ w2.length ∧
      (4 : ℚ) / 5 ≤ (commonChars w1 w2 : ℚ) / (w1.length : ℚ) then 9 / 10
  else 0

/-- Confidence under the claim's literal reading: pair weights summed over
the compared pairs, divided by the fixed divisor 2, scaled to a 0-100
percentage. -/
def claim_match_percentage (name1 name2 : PStr) : ℕ :=
  if normalize_name name1 = normalize_name name2 then 100
  else if pySplit (normalize_name name1) = [] ∨ pySplit (normalize_name name2) = [] then 0
  else
    Int.toNat ⌊(List.zipWith claimPairWeight ((pySplit (normalize_name name1)).take 2)
      ((pySplit (normalize_name name2)).take 2)).sum / 2 * 100⌋

/-- Pair weight with the denominator the source actually uses:
max(len(w1), len(w2)) (src/app.py:211), the amended form of C1. -/
def amendedPairWeight (w1 w2 : PStr) : ℚ :=
  if w1 = w2 then 1
  else if 3 ≤ w1.length ∧ 3 ≤ w2.length ∧
      (4 : ℚ) / 5 ≤ (commonChars w1 w2 : ℚ) / (max w1.length w2.length : ℚ) then 9 / 10
  else 0

/-- Confidence with the amended partial-match condition. -/
def amended_match_percentage (name1 name2 : PStr) : ℕ :=
  if normalize_name name1 = normalize_name name2 then 100
  else if pySplit (normalize_name name1) = [] ∨ pySplit (normalize_name name2) = [] then 0
  else
    Int.toNat ⌊(List.zipWith amendedPairWeight ((pySplit (normalize_name name1)).take 2)
      ((pySplit (normalize_name name2)).take 2)).sum / 2 * 100⌋

lemma amendedPairWeight_eq_tenths (w1 w2 : PStr) :
    amendedPairWeight w1 w2 = (pairTenths w1 w2 : ℚ) / 10 := by
  unfold amendedPairWeight pairTenths
  by_cases heq : w1 = w2
  · rw [if_pos heq, if_pos heq]
    norm_num
  rw [if_neg heq, if_neg heq]
  by_cases hlen : 3 ≤ w1.length ∧ 3 ≤ w2.length
  · have hmax : 0 < max w1.length w2.length := by omega
    have hiff : ((4 : ℚ) / 5 ≤ (commonChars w1 w2 : ℚ) / (max w1.length w2.length : ℚ)) ↔
        4 * max w1.length w2.length ≤ 5 * commonChars w1 w2 := by
      rw [div_le_div_iff₀ (by norm_num) (by exact_mod_cast hmax)]
      constructor
      · intro h2
        rw [mul_comm ((commonChars w1 w2 : ℕ) : ℚ) 5] at h2
        exact_mod_cast h2
      · intro h2
        have h3 : ((4 * max w1.length w2.length : ℕ) : ℚ) ≤
            ((5 * commonChars w1 w2 : ℕ) : ℚ) := by exact_mod_cast h2
        push_cast at h3
        linarith
    by_cases hcond : 4 * max w1.length w2.length ≤ 5 * commonChars w1 w2
    · rw [if_pos ⟨hlen.1, hlen.2, hiff.mpr hcond⟩, if_pos ⟨hlen.1, hlen.2, hcond⟩]
      norm_num
    · rw [if_neg (fun hc => hcond (hiff.mp hc.2.2)), if_neg (fun hc => hcond hc.2.2)]
      norm_num
  · rw [if_neg (fun hc => hlen ⟨hc.1, hc.2.1⟩), if_neg (fun hc => hlen ⟨hc.1, hc.2.1⟩)]
    norm_num

lemma zipWith_amended_sum (l1 l2 : List PStr) :
    (List.zipWith amendedPairWeight l1 l2).sum =
      ((List.zipWith pairTenths l1 l2).sum : ℚ) / 10 := by
  induction l1 generalizing l2 with
  | nil => simp
  | cons a l ih =>
    cases l2 with
    | nil => simp
    | cons b l2' =>
      simp only [List.zipWith_cons_cons, List.sum_cons, ih l2', amendedPairWeight_eq_tenths]
      push_cast
      ring

lemma floor_tenths (t : ℕ) : Int.toNat ⌊((t : ℚ) / 10) / 2 * 100⌋ = t * 100 / 20 := by
  have h1 : ((t : ℚ) / 10) / 2 * 100 = ((t * 5 : ℕ) : ℚ) := by
    push_cast
    ring
  rw [h1, Int.floor_natCast, Int.toNat_natCast]
  omega

/-! ### Claim C1 -/

/-- C1 counterexample: on candidate "abc x" against roster name "abcde x",
the first token pair has all three candidate characters inside the roster
token (fraction 1 ≥ 0.8 under the claim's reading), yet the source grants
no partial weight because its denominator is the max token length
(3/5 < 0.8): the claim's formula predicts 95 where the code computes 50. -/
theorem claim_partial_weight_counterexample :
    calculate_match_percentage (pstr "abc x") (pstr "abcde x") = 50 ∧
    claim_match_percentage (pstr "abc x") (pstr "abcde x") = 95 ∧
    claim_match_percentage (pstr "abc x") (pstr "abcde x") ≠
      calculate_match_percentage (pstr "abc x") (pstr "abcde x") := by
  have hcalc : calculate_match_percentage (pstr "abc x") (pstr "abcde x") = 50 := by decide
  have hq : (4 : ℚ) / 5 ≤
      (commonChars (pstr "abc") (pstr "abcde") : ℚ) / ((pstr "abc").length : ℚ) := by
    rw [show commonChars (pstr "abc") (pstr "abcde") = 3 from by decide,
      show (pstr "abc").length = 3 from by decide]
    norm_num
  have hw1 : claimPairWeight (pstr "abc") (pstr "abcde") = 9 / 10 := by
    unfold claimPairWeight
    rw [if_neg (by decide), if_pos ⟨by decide, by decide, hq⟩]
  have hw2 : claimPairWeight (pstr "x") (pstr "x") = 1 := by
    unfold claimPairWeight
    rw [if_pos rfl]
  have hclaim : claim_match_percentage (pstr "abc x") (pstr "abcde x") = 95 := by
    unfold claim_match_percentage
    rw [if_neg (by decide), if_neg (by decide),
      show (pySplit (normalize_name (pstr "abc x"))).take 2 = [pstr "abc", pstr "x"]
        from by decide,
      show (pySplit (normalize_name (pstr "abcde x"))).take 2 = [pstr "abcde", pstr "x"]
        from by decide]
    simp only [List.zipWith_cons_cons, List.zipWith_nil_left, List.sum_cons, List.sum_nil,
      hw1, hw2]
    rw [show (9 / 10 + (1 + 0) : ℚ) / 2 * 100 = ((95 : ℕ) : ℚ) from by norm_num,
      Int.floor_natCast, Int.toNat_natCast]
  exact ⟨hcalc, hclaim, by rw [hclaim, hcalc]; decide⟩

/-- C1 (amended): a non-equal token pair contributes the partial weight 0.9
exactly when both tokens have length at least 3 and the fraction of
candidate-token characters present in the roster token, measured against
the larger of the two token lengths, is at least 0.8; the confidence is the
pair-weight sum divided by the fixed divisor 2, scaled to a 0-100
percentage. -/
theorem calculate_eq_amended (name1 name2 : PStr) :
    calculate_match_percentage name1 name2 = amended_match_percentage name1 name2 := by
  unfold calculate_match_percentage amended_match_percentage
  by_cases heq : normalize_name name1 = normalize_name name2
  · rw [if_pos heq, if_pos heq]
  rw [if_neg heq, if_neg heq]
  by_cases hw : pySplit (normalize_name name1) = [] ∨ pySplit (normalize_name name2) = []
  · rw [if_pos hw, if_pos hw]
  rw [if_neg hw, if_neg hw, zipWith_amended_sum, floor_tenths]

/-! ### Claim C5 -/

/-- C5 counterexample: canonicalize("Faütima") is "fautima", not the
"fatima" the claim asserts; the umlaut decomposes to a plain letter u that
survives normalization. -/
theorem canonicalize_fautima_counterexample :
    normalize_name (pstr "Faütima") = pstr "fautima" ∧
    normalize_name (pstr "Faütima") ≠ pstr "fatima" := by
  refine ⟨by decide, by decide⟩

/-- C5 (amended): canonicalization is idempotent on every input;
canonicalize("Fátima") = "fatima" while canonicalize("Faütima") = "fautima"
(the fuzzy matcher, not the canonicalizer, reconciles the two). -/
theorem canonicalize_idempotent_and_examples :
    (∀ x : PStr, normalize_name (normalize_name x) = normalize_name x) ∧
    normalize_name (pstr "Fátima") = pstr "fatima" ∧
    normalize_name (pstr "Faütima") = pstr "fautima" :=
  ⟨normalize_name_idem, by decide, by decide⟩

/-- C6 witness: the accepted fuzzy match of "Fautima Garcia" against roster
name "Fatima Garcia" has confidence in [80, 100). -/
theorem match_confidence_invariants_witness :
    80 ≤ (matchRoster (pstr "Fautima Garcia") [pstr "Fatima Garcia"]).percentage ∧
    (matchRoster (pstr "Fautima Garcia") [pstr "Fatima Garcia"]).percentage < 100 :=
  (match_confidence_invariants (pstr "Fautima Garcia") [pstr "Fatima Garcia"]).2.1
    (by decide) (by decide)

/-! ### Claim C7: the score extractor -/

/-- Word-boundary test of `\b` at position `i` of `s`: start of string, or
previous character not a word character. -/
def boundaryAt (s : PStr) : Nat → Bool
  | 0 => true
  | j + 1 =>
    match s.drop j with
    | d :: _ => !wordCh d
    | [] => true

/-- Leftmost-occurrence specification of the score search, phrased
independently of the scanner: the first index whose position passes the
word-boundary test and matches the rest of the pattern. -/
def specFindScore (s : PStr) : Option (Nat × PStr) :=
  match (List.range s.length).find?
      (fun i => boundaryAt s i && (tryScoreHere (s.drop i)).isSome) with
  | some i => some (i, (tryScoreHere (s.drop i)).getD [])
  | none => none

/-- Claim C7's containment reading of the pattern: an occurrence of
`score\s*:\s*\d(\.\d)?` anywhere, with no word-boundary requirement. -/
def containsScorePattern (s : PStr) : Bool :=
  (List.range s.length).any (fun i => (tryScoreHere (s.drop i)).isSome)

theorem findScoreAux_spec :
    ∀ (l : PStr) (s : PStr) (prevW : Bool) (pos : Nat),
      l = s.drop pos →
      (prevW = false ↔ boundaryAt s pos = true) →
      findScoreAux l prevW pos =
        match (List.range' pos (s.length - pos)).find?
            (fun i => boundaryAt s i && (tryScoreHere (s.drop i)).isSome) with
        | some i => some (i, (tryScoreHere (s.drop i)).getD [])
        | none => none
  | [], s, prevW, pos, hl, _ => by
    have hlen : s.length ≤ pos := List.drop_eq_nil_iff.mp hl.symm
    rw [show s.length - pos = 0 from by omega]
    rfl
  | c :: rest, s, prevW, pos, hl, hb => by
    have hlt : pos < s.length := by
      have hne : s.drop pos ≠ [] := by rw [← hl]; simp
      exact List.length_lt_of_drop_ne_nil hne
    have hrest : rest = s.drop (pos + 1) := by
      rw [← List.tail_drop, ← hl]
      rfl
    have hbnext : boundaryAt s (pos + 1) = !wordCh c := by
      show (match s.drop pos with | d :: _ => !wordCh d | [] => true) = !wordCh c
      rw [← hl]
    have hcount : s.length - pos = (s.length - (pos + 1)) + 1 := by omega
    set P : ℕ → Bool := fun i => boundaryAt s i && (tryScoreHere (s.drop i)).isSome with hP
    rw [hcount, List.range'_succ]
    cases hpw : prevW with
    | true =>
      have hbf : boundaryAt s pos = false := by
        rw [hpw] at hb
        cases hbnd : boundaryAt s pos with
        | false => rfl
        | true => exact absurd (hb.mpr hbnd) (by decide)
      have hL : findScoreAux (c :: rest) true pos = findScoreAux rest (wordCh c) (pos + 1) :=
        rfl
      rw [hL, List.find?_cons_of_neg _
        (show ¬ P pos = true from by simp only [hP]; rw [hbf]; simp)]
      rw [findScoreAux_spec rest s (wordCh c) (pos + 1) hrest
        (by cases hw : wordCh c <;> simp [hbnext, hw]), hP]
    | false =>
      have hbt : boundaryAt s pos = true := by
        rw [hpw] at hb
        exact hb.mp rfl
      cases hts : tryScoreHere (c :: rest) with
      | some g =>
        have hL : findScoreAux (c :: rest) false pos = some (pos, g) := by
          have h0 : findScoreAux (c :: rest) false pos =
              (match (if false = true then none else tryScoreHere (c :: rest)) with
               | some g => some (pos, g)
               | none => findScoreAux rest (wordCh c) (pos + 1)) := rfl
          rw [h0, if_neg (by decide), hts]
        rw [hL, List.find?_cons_of_pos _
          (show P pos = true from by simp only [hP]; rw [hbt, ← hl, hts]; rfl)]
        dsimp only
        rw [← hl, hts]
        rfl
      | none =>
        have hL : findScoreAux (c :: rest) false pos =
            findScoreAux rest (wordCh c) (pos + 1) := by
          have h0 : findScoreAux (c :: rest) false pos =
              (match (if false = true then none else tryScoreHere (c :: rest)) with
               | some g => some (pos, g)
               | none => findScoreAux rest (wordCh c) (pos + 1)) := rfl
          rw [h0, if_neg (by decide), hts]
        rw [hL, List.find?_cons_of_neg _
          (show ¬ P pos = true from by simp only [hP]; rw [← hl, hts]; simp)]
        rw [findScoreAux_spec rest s (wordCh c) (pos + 1) hrest
          (by cases hw : wordCh c <;> simp [hbnext, hw]), hP]

lemma findScore_eq_spec (s : PStr) : findScore s = specFindScore s := by
  unfold findScore specFindScore
  rw [List.range_eq_range', show s.length = s.length - 0 from by omega]
  exact findScoreAux_spec s s false 0 rfl (by simp [boundaryAt])

/-- C7 counterexample: "underscore: 7" contains the pattern as the claim
words it (the "score: 7" inside "underscore: 7"), yet the splitter returns
the whole text with an empty score because the regex requires a word
boundary before "score" and the preceding character r is a word
character. -/
theorem score_boundary_counterexample :
    containsScorePattern (pstr "underscore: 7") = true ∧
    split_feedback_and_score (pstr "underscore: 7") = (pstr "underscore: 7", pstr "") := by
  refine ⟨by decide, by decide⟩

/-- C7 (amended): the splitter extracts at the leftmost position where a
word boundary precedes "score", optional whitespace, a colon, optional
whitespace and a digit with an optional one-decimal fraction: the matched
digits become the score and the trimmed text before the match point the
comment; with no such occurrence the whole text is the comment and the
score is empty. -/
theorem split_feedback_and_score_amended (s : PStr) :
    split_feedback_and_score s =
      match specFindScore s with
      | some p => (pyStrip (s.take p.1), p.2)
      | none => (s, []) := by
  unfold split_feedback_and_score
  rw [findScore_eq_spec]
  unfold specFindScore
  cases (List.range s.length).find?
      (fun i => boundaryAt s i && (tryScoreHere (s.drop i)).isSome) with
  | some i => rfl
  | none => rfl

/-! ### Facts about the orchestrator -/

/-- Convenience builders for concrete runs. -/
def mkRow (name : PStr) (extra : List PStr) : Row :=
  { fullName := name, extra := extra, feedback := [], grade := none }

def mkItem (f : PStr) (ext gen : Except PStr PStr) : ItemSpec :=
  { rawFname := f, extraction := ext, generation := gen }

def mkRun (task : PStr) (rows : List Row) (items : List ItemSpec) : RunInput :=
  { taskType := task, instructionsLoad := .ok (), rosterLoad := .ok rows
    archiveLoad := .ok items, persistOutcome := .ok () }

lemma runLoop_cons (total pos : Nat) (it : ItemSpec) (rest : List ItemSpec)
    (rows : List Row) :
    runLoop total pos (it :: rest) rows =
      ((processItem pos total it rows).event ::
         (runLoop total (pos + 1) rest (processItem pos total it rows).rows).1,
       (match (processItem pos total it rows).result? with
        | some r =>
          r :: (runLoop total (pos + 1) rest (processItem pos total it rows).rows).2.1
        | none => (runLoop total (pos + 1) rest (processItem pos total it rows).rows).2.1),
       (runLoop total (pos + 1) rest (processItem pos total it rows).rows).2.2) := rfl

/-- Every per-item event is a `progress` or an `error` event. -/
lemma processItem_event_kind (pos total : Nat) (it : ItemSpec) (rows : List Row) :
    (processItem pos total it rows).event.isProgress = true ∨
    (processItem pos total it rows).event.isErrorEvent = true := by
  unfold processItem
  repeat' first | split | dsimp only
  all_goals first | (left; rfl) | (right; rfl)

lemma updateRoster_map_pre (rows : List Row) (m comment : PStr) (grade : Option ℚ) :
    (updateRoster rows m comment grade).map (fun r => (r.fullName, r.extra)) =
      rows.map (fun r => (r.fullName, r.extra)) := by
  unfold updateRoster
  rw [List.map_map]
  apply List.map_congr_left
  intro r _
  by_cases hr : r.fullName = m
  · simp [hr]
  · simp [hr]

/-- Per-item processing preserves the pre-existing cells of every row. -/
lemma processItem_rows_pre (pos total : Nat) (it : ItemSpec) (rows : List Row) :
    ((processItem pos total it rows).rows).map (fun r => (r.fullName, r.extra)) =
      rows.map (fun r => (r.fullName, r.extra)) := by
  unfold processItem
  repeat' first | split | dsimp only
  all_goals first | rfl | (rw [updateRoster_map_pre])

lemma rows_names_of_pre {rows1 rows2 : List Row}
    (h : rows1.map (fun r => (r.fullName, r.extra)) =
      rows2.map (fun r => (r.fullName, r.extra))) :
    rows1.map Row.fullName = rows2.map Row.fullName := by
  have h2 := congrArg (List.map Prod.fst) h
  simpa [List.map_map, Function.comp] using h2

/-- The event and the appended result of one item depend on the roster only
through its `Full name` column (which processing never changes). -/
lemma processItem_congr (pos total : Nat) (it : ItemSpec) {rows1 rows2 : List Row}
    (h : rows1.map Row.fullName = rows2.map Row.fullName) :
    (processItem pos total it rows1).event = (processItem pos total it rows2).event ∧
    (processItem pos total it rows1).result? = (processItem pos total it rows2).result? := by
  unfold processItem
  rw [h]
  repeat' first | split | dsimp only
  all_goals exact ⟨rfl, rfl⟩

lemma mapIdx_congr' {α β : Type} {f g : ℕ → α → β} :
    ∀ l : List α, (∀ i a, f i a = g i a) → l.mapIdx f = l.mapIdx g
  | [], _ => rfl
  | a :: l, h => by
    rw [List.mapIdx_cons, List.mapIdx_cons, h 0 a,
      mapIdx_congr' l (fun i b => h (i + 1) b)]

/-- The final roster of a loop keeps every pre-existing cell of every row. -/
lemma runLoop_rows_pre (total : Nat) :
    ∀ (items : List ItemSpec) (pos : Nat) (rows : List Row),
      ((runLoop total pos items rows).2.2).map (fun r => (r.fullName, r.extra)) =
        rows.map (fun r => (r.fullName, r.extra))
  | [], _, _ => rfl
  | it :: rest, pos, rows => by
    rw [runLoop_cons]
    dsimp only
    rw [runLoop_rows_pre total rest (pos + 1) (processItem pos total it rows).rows,
      processItem_rows_pre]

/-- The event list of a loop is exactly one per-item event per file, in file
order, with the item at 0-based index i processed at position pos + i. -/
lemma runLoop_events (total : Nat) :
    ∀ (items : List ItemSpec) (pos : Nat) (rows : List Row),
      (runLoop total pos items rows).1 =
        items.mapIdx (fun i it => (processItem (pos + i) total it rows).event)
  | [], _, _ => rfl
  | it :: rest, pos, rows => by
    rw [runLoop_cons]
    dsimp only
    rw [List.mapIdx_cons]
    refine List.cons_eq_cons.mpr ⟨?_, ?_⟩
    · rw [Nat.add_zero]
    · rw [runLoop_events total rest (pos + 1) (processItem pos total it rows).rows]
      exact mapIdx_congr' rest (fun i a => by
        rw [show pos + 1 + i = pos + (i + 1) from by omega]
        exact (processItem_congr (pos + (i + 1)) total a
          (rows_names_of_pre (processItem_rows_pre pos total it rows))).1)

lemma mapIdx_event_kind (total : Nat) (rows : List Row) :
    ∀ (l : List ItemSpec) (f : ℕ → ℕ) (e : Event),
      e ∈ l.mapIdx (fun i it => (processItem (f i) total it rows).event) →
      e.isProgress = true ∨ e.isErrorEvent = true
  | [], _, e, he => absurd he (List.not_mem_nil e)
  | a :: l, f, e, he => by
    rw [List.mapIdx_cons] at he
    rcases List.mem_cons.mp he with h1 | h2
    · rw [h1]; exact processItem_event_kind (f 0) total a rows
    · exact mapIdx_event_kind total rows l (fun i => f (i + 1)) e h2

/-- C8: for every run whose task type is configured and whose loads and
persistence succeed (here: every run built by mkRun), the event stream is
exactly one event per kept archive entry, in submission order, each of type
progress or error, followed by exactly one complete event; since the stream is
the full per-entry map, a failing entry contributes its own event and never
aborts the batch or suppresses later entries. -/
theorem event_stream_shape (task : PStr) (rows : List Row) (items : List ItemSpec)
    (hv : validTask task = true) :
    runEvents (mkRun task rows items) =
      (filesOf items).mapIdx
        (fun i it => (processItem (i + 1) (filesOf items).length it rows).event) ++
      [Event.complete (filesOf items).length] ∧
    ∀ e ∈ (filesOf items).mapIdx
        (fun i it => (processItem (i + 1) (filesOf items).length it rows).event),
      e.isProgress = true ∨ e.isErrorEvent = true := by
  constructor
  · unfold runEvents process_bulk_marking mkRun
    dsimp only
    rw [if_neg (show ¬ (validTask task = false) from fun hc => by
      rw [hv] at hc; exact Bool.noConfusion hc)]
    dsimp only
    rw [runLoop_events (filesOf items).length (filesOf items) 1 rows]
    refine congrArg (fun l => l ++ [Event.complete (filesOf items).length]) ?_
    exact mapIdx_congr' (filesOf items) (fun i a => by rw [Nat.add_comm 1 i])
  · intro e he
    exact mapIdx_event_kind (filesOf items).length rows (filesOf items)
      (fun i => i + 1) e he

/-- Witness for C8 at a concrete run with one PDF submission. -/
theorem event_stream_shape_witness :
    runEvents (mkRun (pstr "reading") [mkRow (pstr "Maria Lopez") []]
        [mkItem (pstr "Maria Lopez.pdf") (Except.ok (pstr "t")) (Except.ok (pstr "x"))]) =
      (filesOf [mkItem (pstr "Maria Lopez.pdf") (Except.ok (pstr "t"))
          (Except.ok (pstr "x"))]).mapIdx
        (fun i it => (processItem (i + 1)
          (filesOf [mkItem (pstr "Maria Lopez.pdf") (Except.ok (pstr "t"))
            (Except.ok (pstr "x"))]).length it [mkRow (pstr "Maria Lopez") []]).event) ++
      [Event.complete (filesOf [mkItem (pstr "Maria Lopez.pdf") (Except.ok (pstr "t"))
          (Except.ok (pstr "x"))]).length] ∧
    ∀ e ∈ (filesOf [mkItem (pstr "Maria Lopez.pdf") (Except.ok (pstr "t"))
          (Except.ok (pstr "x"))]).mapIdx
        (fun i it => (processItem (i + 1)
          (filesOf [mkItem (pstr "Maria Lopez.pdf") (Except.ok (pstr "t"))
            (Except.ok (pstr "x"))]).length it [mkRow (pstr "Maria Lopez") []]).event),
      e.isProgress = true ∨ e.isErrorEvent = true :=
  event_stream_shape (pstr "reading") [mkRow (pstr "Maria Lopez") []]
    [mkItem (pstr "Maria Lopez.pdf") (Except.ok (pstr "t")) (Except.ok (pstr "x"))]
    (by decide)

/-- C9: for every roster, a complete run (configured task, successful loads and
persistence) returns artifacts whose roster has the same row count, the same
row order, and the same Full name and pre-existing extra cells in every row;
only feedback and grade are ever rewritten. -/
theorem roster_frame_preserved (task : PStr) (rows : List Row) (items : List ItemSpec)
    (hv : validTask task = true) :
    ∃ art, runArtifacts (mkRun task rows items) = some art ∧
      art.roster.length = rows.length ∧
      art.roster.map (fun r => (r.fullName, r.extra)) =
        rows.map (fun r => (r.fullName, r.extra)) := by
  have hart : runArtifacts (mkRun task rows items) =
      some { roster := (runLoop (filesOf items).length 1 (filesOf items) rows).2.2
             results := (runLoop (filesOf items).length 1 (filesOf items) rows).2.1 } := by
    unfold runArtifacts process_bulk_marking mkRun
    dsimp only
    rw [if_neg (show ¬ (validTask task = false) from fun hc => by
      rw [hv] at hc; exact Bool.noConfusion hc)]
  have hpre := runLoop_rows_pre (filesOf items).length (filesOf items) 1 rows
  refine ⟨_, hart, ?_, hpre⟩
  have hlen := congrArg List.length hpre
  simpa [List.length_map] using hlen

/-- Witness for C9 at a concrete run with a two-row roster carrying an extra
student-ID column. -/
theorem roster_frame_preserved_witness :
    ∃ art, runArtifacts (mkRun (pstr "reading")
        [mkRow (pstr "Maria Lopez") [pstr "ID1"], mkRow (pstr "John Smith") [pstr "ID2"]]
        [mkItem (pstr "Maria Lopez.pdf") (Except.ok (pstr "t")) (Except.ok (pstr "x"))]) =
      some art ∧
      art.roster.length =
        [mkRow (pstr "Maria Lopez") [pstr "ID1"], mkRow (pstr "John Smith") [pstr "ID2"]].length ∧
      art.roster.map (fun r => (r.fullName, r.extra)) =
        [mkRow (pstr "Maria Lopez") [pstr "ID1"],
          mkRow (pstr "John Smith") [pstr "ID2"]].map (fun r => (r.fullName, r.extra)) :=
  roster_frame_preserved (pstr "reading")
    [mkRow (pstr "Maria Lopez") [pstr "ID1"], mkRow (pstr "John Smith") [pstr "ID2"]]
    [mkItem (pstr "Maria Lopez.pdf") (Except.ok (pstr "t")) (Except.ok (pstr "x"))]
    (by decide)

/-- C4 counterexample: with task type "quiz" (outside the configured set) the
run emits exactly one terminating event and persists nothing, but the event is
the bare error payload of src/app.py:223 (a plain error-key object with no
type field), not a fatal_error event: no event of the run is fatal. -/
theorem invalid_task_counterexample :
    process_bulk_marking (mkRun (pstr "quiz") [] []) =
      ([Event.bareError (pstr "Invalid task type")], none) ∧
    ∀ e ∈ (process_bulk_marking (mkRun (pstr "quiz") [] [])).1, e.isFatal = false :=
  ⟨by decide, by decide⟩

/-- C4 amended: when the task type is outside the configured set, the run
aborts immediately with the single bare error payload "Invalid task type"
(src/app.py:220-224) — an error object without the fatal_error type tag — and
no artifacts are persisted. -/
theorem invalid_task_bare_error (inp : RunInput) (h : validTask inp.taskType = false) :
    process_bulk_marking inp = ([Event.bareError (pstr "Invalid task type")], none) := by
  unfold process_bulk_marking
  rw [if_pos h]

/-- Witness for the amended C4 at the concrete task type "quiz". -/
theorem invalid_task_bare_error_witness :
    process_bulk_marking (mkRun (pstr "quiz") [] []) =
      ([Event.bareError (pstr "Invalid task type")], none) :=
  invalid_task_bare_error (mkRun (pstr "quiz") [] []) (by decide)

/-- C3 refutation (code bug): one archive entry ("John Smith.pdf", matching no
roster name) against a three-row roster yields a progress event with current 2,
total 1 and percentage 200 instead of current 1 and percentage 100: the
enumerate over the roster at src/app.py:316 shadows the file-loop index of
src/app.py:262, so `current` reports a roster index, not the entry position. -/
theorem progress_index_shadowing_bug :
    runEvents (mkRun (pstr "reading")
        [mkRow (pstr "Amanda Lee") [], mkRow (pstr "Bob Jones") [],
          mkRow (pstr "Carol White") []]
        [mkItem (pstr "John Smith.pdf") (Except.ok (pstr "t")) (Except.ok (pstr "text"))]) =
      [Event.progress 2 1 200
        { fileName := pstr "John Smithpdf", studentName := pstr "John Smithpdf"
          matchedName := none, matchPercentage := 0, matchStatus := MatchStatus.noMatch
          score := [], comment := pstr "John, text", commentPreview := pstr "John, text" },
        Event.complete 1] := by decide

/-- C2 counterexample: when the extraction call for an item raises, the batch
emits an error event (src/app.py:372-380), not a progress event: the
extraction call at src/app.py:264 sits outside the per-item try of
src/app.py:262, so its exception is caught by the file-loop handler. -/
theorem extraction_error_event_counterexample :
    runEvents (mkRun (pstr "reading") [mkRow (pstr "Maria Lopez") []]
        [mkItem (pstr "Maria Lopez.pdf") (Except.error (pstr "boom")) (Except.ok (pstr "x"))]) =
      [Event.error (pstr "Maria Lopezpdf") (pstr "boom"), Event.complete 1] ∧
    ∀ e ∈ runEvents (mkRun (pstr "reading") [mkRow (pstr "Maria Lopez") []]
        [mkItem (pstr "Maria Lopez.pdf") (Except.error (pstr "boom")) (Except.ok (pstr "x"))]),
      e.isProgress = false :=
  ⟨by decide, by decide⟩

/-- C2 amended: it is the generation call (inside the per-item try,
src/app.py:127-130) whose exception still yields a progress event, with empty
score and the message embedded in the comment; but the comment gets the
salutation treatment of src/app.py:298-311, so it begins with the student
first name, not with "Error:". Stated for any message whose error text
contains no score pattern. -/
theorem generation_error_progress_event (msg : PStr)
    (h : findScore (pstr "Error: " ++ msg) = none) :
    processItem 1 1 (mkItem (pstr "Maria Lopez.pdf") (Except.ok (pstr "t"))
        (Except.error msg)) [] =
      { event := Event.progress 1 1 100
          { fileName := pstr "Maria Lopezpdf"
            studentName := pstr "Maria Lopezpdf"
            matchedName := none
            matchPercentage := 0
            matchStatus := MatchStatus.noMatch
            score := []
            comment := pstr "Maria, error: " ++ msg
            commentPreview := preview (pstr "Maria, error: " ++ msg) }
        result? := some
          { fileName := pstr "Maria Lopezpdf"
            studentName := pstr "Maria Lopezpdf"
            matchedName := none
            matchPercentage := 0
            matchStatus := MatchStatus.noMatch
            score := []
            comment := pstr "Maria, error: " ++ msg
            commentPreview := preview (pstr "Maria, error: " ++ msg) }
        rows := [] } := by
  have hsplit : split_feedback_and_score (pstr "Error: " ++ msg) =
      (pstr "Error: " ++ msg, []) := by
    unfold split_feedback_and_score
    rw [h]
  unfold processItem
  rw [show generate_feedback (mkItem (pstr "Maria Lopez.pdf") (Except.ok (pstr "t"))
      (Except.error msg)) = Except.ok (pstr "Error: " ++ msg) from rfl]
  dsimp only
  rw [hsplit]
  rw [show (mkItem (pstr "Maria Lopez.pdf") (Except.ok (pstr "t"))
      (Except.error msg)).rawFname = pstr "Maria Lopez.pdf" from rfl]
  rw [show clean_corrupted_name (pstr "Maria Lopez.pdf") = pstr "Maria Lopezpdf" from by decide]
  rw [show pyStrip (splitextBase (pstr "Maria Lopezpdf")) = pstr "Maria Lopezpdf" from by decide]
  rw [show extract_first_name_from_filename (pstr "Maria Lopez.pdf") = pstr "Maria" from by
    decide]
  rw [List.map_nil]
  rw [show matchRoster (pstr "Maria Lopezpdf") [] =
      ({ matchedName := none, percentage := 0, status := .noMatch
         fuzzyRan := true } : MatchOutcome) from by decide]
  dsimp only
  rw [if_neg (show ¬ (true = true ∧ ([] : List PStr) ≠ []) from by simp)]
  rw [if_neg (show ¬ (pstr "Error: " ++ msg = []) from fun hc =>
    List.noConfusion (show ('E' : Char) :: (pstr "rror: " ++ msg) = [] from hc))]
  rw [show startsWithCI (stripLeadingSalutation (pstr "Error: " ++ msg)) (pstr "Maria") = false
    from rfl]
  rw [if_neg (show ¬ (false = true) from by simp)]
  rw [show prependFirstName (pstr "Maria") (stripLeadingSalutation (pstr "Error: " ++ msg)) =
    pstr "Maria, error: " ++ msg from rfl]

/-- Witness for the amended C2 at the concrete message "boom". -/
theorem generation_error_progress_event_witness :
    processItem 1 1 (mkItem (pstr "Maria Lopez.pdf") (Except.ok (pstr "t"))
        (Except.error (pstr "boom"))) [] =
      { event := Event.progress 1 1 100
          { fileName := pstr "Maria Lopezpdf"
            studentName := pstr "Maria Lopezpdf"
            matchedName := none
            matchPercentage := 0
            matchStatus := MatchStatus.noMatch
            score := []
            comment := pstr "Maria, error: " ++ pstr "boom"
            commentPreview := preview (pstr "Maria, error: " ++ pstr "boom") }
        result? := some
          { fileName := pstr "Maria Lopezpdf"
            studentName := pstr "Maria Lopezpdf"
            matchedName := none
            matchPercentage := 0
            matchStatus := MatchStatus.noMatch
            score := []
            comment := pstr "Maria, error: " ++ pstr "boom"
            commentPreview := preview (pstr "Maria, error: " ++ pstr "boom") }
        rows := [] } :=
  generation_error_progress_event (pstr "boom") (by decide)

/-- Every row of the written roster whose Full name equals the matched name
carries the written comment and grade (the boolean-mask write of
src/app.py:337-338 hits all rows bearing the name). -/
lemma mem_updateRoster :
    ∀ (rows : List Row) (m comment : PStr) (grade : Option ℚ) (r : Row),
      r ∈ updateRoster rows m comment grade → r.fullName = m →
      r.feedback = comment ∧ r.grade = grade
  | [], _, _, _, _, hr, _ => absurd hr (List.not_mem_nil _)
  | r0 :: rest, m, comment, grade, r, hr, hname => by
    unfold updateRoster at hr
    rw [List.map_cons] at hr
    rcases List.mem_cons.mp hr with h1 | h2
    · by_cases h0 : r0.fullName = m
      · rw [h1]
        rw [if_pos h0]
        exact ⟨rfl, rfl⟩
      · rw [h1] at hname
        rw [if_neg h0] at hname
        exact absurd hname h0
    · exact mem_updateRoster rest m comment grade r h2 hname

/-- C10: whenever processing one submission yields a progress event whose
result carries a matched name, every roster row bearing that Full name — in
particular all duplicates — receives the submission's comment and grade; the
mask write of src/app.py:337-338 is not limited to the matched row. -/
theorem duplicate_rows_all_written (pos total : Nat) (it : ItemSpec) (rows : List Row)
    (idx tot pct : Nat) (res : ItemResult) (m : PStr)
    (hev : (processItem pos total it rows).event = Event.progress idx tot pct res)
    (hm : res.matchedName = some m) :
    ∀ r ∈ (processItem pos total it rows).rows,
      r.fullName = m → r.feedback = res.comment ∧ r.grade = scoreToGrade res.score := by
  intro r hr hname
  unfold processItem at hev hr
  rcases hgen : generate_feedback it with e | fb
  · rw [hgen] at hev
    exact Event.noConfusion (show Event.error _ _ = Event.progress idx tot pct res from hev)
  · rw [hgen] at hev hr
    dsimp only at hev hr
    rcases hmn : (matchRoster (pyStrip (splitextBase (clean_corrupted_name it.rawFname)))
        (List.map Row.fullName rows)).matchedName with _ | mn
    · rw [hmn] at hev hr
      dsimp only at hev
      injection hev with h1 h2 h3 h4
      rw [← h4] at hm
      exact Option.noConfusion (show (none : Option PStr) = some m from hm)
    · rw [hmn] at hev hr
      dsimp only at hev hr
      rcases hsp : pySplit mn with _ | ⟨cf, tl⟩
      · rw [hsp] at hev
        exact Event.noConfusion (show Event.error _ _ = Event.progress idx tot pct res from hev)
      · rw [hsp] at hev hr
        dsimp only at hev hr
        injection hev with h1 h2 h3 h4
        rw [← h4] at hm
        have hm2 : mn = m := by
          have hsome := show some mn = some m from hm
          injection hsome
        have hw := mem_updateRoster rows mn _ _ r hr (by rw [hname, ← hm2])
        rw [← h4]
        dsimp only
        exact hw

/-- Concrete matched result used by the C10 witness. -/
def c10res : ItemResult :=
  { fileName := pstr "Maria Lopez Garciapdf"
    studentName := pstr "Maria Lopez Garciapdf"
    matchedName := some (pstr "Maria Lopez"), matchPercentage := 100
    matchStatus := MatchStatus.success, score := []
    comment := pstr "Maria, nice work."
    commentPreview := pstr "Maria, nice work." }

/-- Concrete updated duplicate row used by the C10 witness. -/
def c10row : Row :=
  { fullName := pstr "Maria Lopez", extra := [], feedback := pstr "Maria, nice work."
    grade := none }

/-- Witness for C10: a roster with two identical "Maria Lopez" rows, one
matched submission; each duplicate row carries the submission's comment and
grade. -/
theorem duplicate_rows_all_written_witness :
    c10row.feedback = c10res.comment ∧ c10row.grade = scoreToGrade c10res.score :=
  duplicate_rows_all_written 1 1
    (mkItem (pstr "Maria Lopez Garcia.pdf") (Except.ok (pstr "t"))
      (Except.ok (pstr "Nice work.")))
    [mkRow (pstr "Maria Lopez") [], mkRow (pstr "Maria Lopez") []]
    1 1 100 c10res (pstr "Maria Lopez") (by decide) (by decide)
    c10row (by decide) (by decide)

end AdelChecker
